import Mathlib

/-!
Verification of the AoA-Project-1 algorithm engines.

The repository contains two independent problem domains:
a maximum-subarray family (divide and conquer, Kadane-style linear scan,
and a brute-force oracle) and an EV trip-planning family (a greedy
minimum-stop planner and a quadratic dynamic-programming oracle).

Real numbers of the Python source are modelled as rationals.
-/

namespace AoA

/-- Sum of the inclusive index range `[i, j]` of `values`. -/
def rangeSum (values : List ℚ) (i j : ℕ) : ℚ :=
  ((values.drop i).take (j + 1 - i)).sum

/-! ## Brute-force maximum subarray (src/Divide&Conquer/naive_baseline.py)

The Python loops carry `(max_sum, best_start, best_end)` with `max_sum`
initialised to negative infinity; we model that initial value as `none`,
with `ltBest` the comparison `current_sum > max_sum` (anything exceeds
negative infinity).  `naiveInner` is the inner `for j` loop (for a fixed
`i`, accumulating `current_sum`), `naiveOuter` the outer `for i` loop. -/

/-- The comparison `c > best` where `best = none` stands for the initial
negative infinity. -/
def ltBest (best : Option ℚ) (c : ℚ) : Bool :=
  match best with
  | none => true
  | some b => decide (b < c)

/-- Inner loop of `max_subarray_naive`: for fixed `i`, walk the indices
`js`, accumulate `current_sum`, and update the best triple whenever the
accumulated sum strictly exceeds the best sum so far. -/
def naiveInner (values : List ℚ) (i : ℕ) :
    List ℕ → ℚ → Option ℚ × ℕ × ℕ → Option ℚ × ℕ × ℕ
  | [], _, st => st
  | j :: js, currentSum, st =>
      let currentSum' := currentSum + values.getD j 0
      let st' := if ltBest st.1 currentSum' then (some currentSum', i, j) else st
      naiveInner values i js currentSum' st'

/-- Outer loop of `max_subarray_naive`: for each start index `i`, run the
inner loop over `j = i, …, n-1` with `current_sum` reset to `0`. -/
def naiveOuter (values : List ℚ) : List ℕ → Option ℚ × ℕ × ℕ → Option ℚ × ℕ × ℕ
  | [], st => st
  | i :: is, st =>
      naiveOuter values is (naiveInner values i (List.range' i (values.length - i)) 0 st)

/-- Brute-force maximum subarray via exhaustive enumeration
(`max_subarray_naive` in src/Divide&Conquer/naive_baseline.py).
Returns the sentinel `(-1, -1, 0)` for an empty list. -/
def max_subarray_naive (values : List ℚ) : Int × Int × ℚ :=
  if values.isEmpty then (-1, -1, 0)
  else
    let r := naiveOuter values (List.range values.length) (none, 0, 0)
    ((r.2.1 : Int), (r.2.2 : Int), r.1.getD 0)

/-! ### Analysis of the brute-force scan

The two nested loops are re-expressed as a single left-to-right pass
(`bestRun`) over the list of candidate ranges `(i, j, rangeSum i j)` in
scan order, updating only on a strict improvement. -/

/-- One update step of the brute-force scan on an explicit candidate. -/
def bestStep (c : ℕ × ℕ × ℚ) (st : Option ℚ × ℕ × ℕ) : Option ℚ × ℕ × ℕ :=
  if ltBest st.1 c.2.2 then (some c.2.2, c.1, c.2.1) else st

/-- Run the brute-force update over a list of candidates. -/
def bestRun : List (ℕ × ℕ × ℚ) → Option ℚ × ℕ × ℕ → Option ℚ × ℕ × ℕ
  | [], st => st
  | c :: cs, st => bestRun cs (bestStep c st)

/-- All candidate ranges of the brute-force scan, in scan order:
`i` ascending, then `j` ascending from `i`. -/
def cands (values : List ℚ) : List (ℕ × ℕ × ℚ) :=
  (List.range values.length).flatMap fun i =>
    (List.range' i (values.length - i)).map fun j => (i, j, rangeSum values i j)

/-! ### Range-sum arithmetic -/

theorem rangeSum_same (values : List ℚ) (i : ℕ) :
    rangeSum values i i = values.getD i 0 := by
  unfold rangeSum
  rw [List.getD_eq_getElem?_getD]
  rcases h : values.drop i with _ | ⟨a, t⟩
  · have hlen : values.length ≤ i := by
      have := congrArg List.length h
      simp at this
      omega
    simp [List.getElem?_eq_none hlen]
  · have : values[i]? = some a := by
      have h0 : (values.drop i)[0]? = values[i]? := by
        rw [List.getElem?_drop]
        simp
      rw [← h0, h]
      simp
    simp [this, h]

theorem rangeSum_succ (values : List ℚ) {i j : ℕ} (hij : i ≤ j + 1) :
    rangeSum values i (j + 1) = rangeSum values i j + values.getD (j + 1) 0 := by
  unfold rangeSum
  have harith : j + 1 + 1 - i = (j + 1 - i) + 1 := by omega
  rw [harith, List.take_succ, List.sum_append, List.getElem?_drop,
    List.getD_eq_getElem?_getD]
  have harith2 : i + (j + 1 - i) = j + 1 := by omega
  rw [harith2]
  rcases values[j + 1]? with _ | a <;> simp

theorem rangeSum_split (values : List ℚ) {i m j : ℕ} (him : i ≤ m) (hmj : m < j) :
    rangeSum values i j = rangeSum values i m + rangeSum values (m + 1) j := by
  unfold rangeSum
  have harith : j + 1 - i = (m + 1 - i) + (j - m) := by omega
  rw [harith, List.take_add, List.sum_append, List.drop_drop]
  have h1 : i + (m + 1 - i) = m + 1 := by omega
  have h2 : j - m = j + 1 - (m + 1) := by omega
  rw [h1, h2]

/-! ### The brute-force loops as a candidate scan -/

/-- Intermediate form of the inner loop: the accumulating sums made explicit
as a candidate list. -/
def accum (values : List ℚ) (i : ℕ) : List ℕ → ℚ → List (ℕ × ℕ × ℚ)
  | [], _ => []
  | j :: js, c => (i, j, c + values.getD j 0) :: accum values i js (c + values.getD j 0)

theorem naiveInner_eq_bestRun (values : List ℚ) (i : ℕ) :
    ∀ (js : List ℕ) (c : ℚ) (st : Option ℚ × ℕ × ℕ),
      naiveInner values i js c st = bestRun (accum values i js c) st := by
  intro js
  induction js with
  | nil => intro c st; rfl
  | cons j js ih =>
      intro c st
      simp only [naiveInner, accum, bestRun, bestStep]
      exact ih _ _

theorem accum_range' (values : List ℚ) (i : ℕ) :
    ∀ (k a : ℕ) (c : ℚ), i ≤ a →
      accum values i (List.range' a k) c =
        (List.range' a k).map fun j => (i, j, c + rangeSum values a j) := by
  intro k
  induction k with
  | zero => intro a c _; rfl
  | succ k ih =>
      intro a c ha
      rw [List.range'_succ]
      simp only [accum, List.map_cons, rangeSum_same]
      congr 1
      rw [ih (a + 1) _ (by omega)]
      apply List.map_congr_left
      intro j hj
      have haj : a + 1 ≤ j := by
        have := List.mem_range'_1.mp hj
        omega
      have : rangeSum values a j = values.getD a 0 + rangeSum values (a + 1) j := by
        rw [rangeSum_split values (le_refl a) (by omega), rangeSum_same]
      rw [this]
      simp [add_assoc]

theorem bestRun_append (xs ys : List (ℕ × ℕ × ℚ)) (st : Option ℚ × ℕ × ℕ) :
    bestRun (xs ++ ys) st = bestRun ys (bestRun xs st) := by
  induction xs generalizing st with
  | nil => rfl
  | cons x xs ih => simp only [List.cons_append, bestRun]; exact ih _

theorem naiveOuter_eq_bestRun (values : List ℚ) :
    ∀ (is : List ℕ) (st : Option ℚ × ℕ × ℕ),
      naiveOuter values is st =
        bestRun (is.flatMap fun i =>
          (List.range' i (values.length - i)).map fun j => (i, j, rangeSum values i j)) st := by
  intro is
  induction is with
  | nil => intro st; rfl
  | cons i is ih =>
      intro st
      simp only [naiveOuter, List.flatMap_cons, bestRun_append]
      rw [naiveInner_eq_bestRun, accum_range' values i _ i 0 (le_refl i), ih]
      congr 2
      apply List.map_congr_left
      intro j _
      simp

theorem max_subarray_naive_eq_bestRun (values : List ℚ) (h : values ≠ []) :
    max_subarray_naive values =
      (((bestRun (cands values) (none, 0, 0)).2.1 : Int),
       ((bestRun (cands values) (none, 0, 0)).2.2 : Int),
       (bestRun (cands values) (none, 0, 0)).1.getD 0) := by
  unfold max_subarray_naive
  rw [if_neg (by simpa using h)]
  rw [naiveOuter_eq_bestRun]
  rfl

theorem ltBest_none (c : ℚ) : ltBest none c = true := rfl

theorem ltBest_some (b c : ℚ) : ltBest (some b) c = true ↔ b < c := by
  simp [ltBest]

theorem ltBest_some_false (b c : ℚ) : ltBest (some b) c = false ↔ c ≤ b := by
  simp [ltBest]

/-- If no candidate strictly improves on the current best, the scan
leaves the state unchanged. -/
theorem bestRun_no_improvement :
    ∀ (cs : List (ℕ × ℕ × ℚ)) (st : Option ℚ × ℕ × ℕ),
      (∀ c ∈ cs, ltBest st.1 c.2.2 = false) → bestRun cs st = st := by
  intro cs
  induction cs with
  | nil => intro st _; rfl
  | cons c cs ih =>
      intro st h
      have hc := h c (List.mem_cons_self c cs)
      simp only [bestRun, bestStep, hc, Bool.false_eq_true, if_false]
      exact ih st fun c' hc' => h c' (List.mem_cons_of_mem c hc')

/-- First-found argmax: if some candidate strictly improves on the initial
best, the scan returns the data of a candidate `c₀` such that every earlier
candidate either has a strictly smaller sum or never improved on the initial
best, and every later candidate has sum at most that of `c₀`. -/
theorem bestRun_first_argmax :
    ∀ (cs : List (ℕ × ℕ × ℚ)) (st : Option ℚ × ℕ × ℕ),
      (∃ c ∈ cs, ltBest st.1 c.2.2 = true) →
      ∃ l₁ c₀ l₂, cs = l₁ ++ c₀ :: l₂ ∧
        bestRun cs st = (some c₀.2.2, c₀.1, c₀.2.1) ∧
        (∀ c ∈ l₁, c.2.2 < c₀.2.2 ∨ ltBest st.1 c.2.2 = false) ∧
        (∀ c ∈ l₂, c.2.2 ≤ c₀.2.2) := by
  intro cs
  induction cs with
  | nil => intro st h; simp at h
  | cons c cs ih =>
      intro st h
      by_cases hc : ltBest st.1 c.2.2 = true
      · set st' : Option ℚ × ℕ × ℕ := (some c.2.2, c.1, c.2.1) with hst'
        have hrun : bestRun (c :: cs) st = bestRun cs st' := by
          simp only [bestRun, bestStep, hc, if_true]
        by_cases h2 : ∃ c' ∈ cs, ltBest st'.1 c'.2.2 = true
        · obtain ⟨l₁, c₀, l₂, hsplit, hres, hbefore, hafter⟩ := ih st' h2
          have hcc₀ : c.2.2 < c₀.2.2 := by
            obtain ⟨c', hc'mem, hc'⟩ := h2
            have hc'lt : c.2.2 < c'.2.2 := (ltBest_some _ _).mp hc'
            rw [hsplit] at hc'mem
            rcases List.mem_append.mp hc'mem with hl | hr
            · rcases hbefore c' hl with hlt | hfalse
              · exact hc'lt.trans hlt
              · rw [hc'] at hfalse; cases hfalse
            · rcases List.mem_cons.mp hr with he | hl₂
              · rwa [← he]
              · exact hc'lt.trans_le (hafter c' hl₂)
          refine ⟨c :: l₁, c₀, l₂, by rw [hsplit]; rfl, by rw [hrun, hres], ?_, hafter⟩
          intro c' hc'
          rcases List.mem_cons.mp hc' with he | hl
          · left; rw [he]; exact hcc₀
          · rcases hbefore c' hl with hlt | hfalse
            · left; exact hlt
            · left
              have : c'.2.2 ≤ c.2.2 := (ltBest_some_false _ _).mp hfalse
              exact this.trans_lt hcc₀
        · push_neg at h2
          have hall : ∀ c' ∈ cs, ltBest st'.1 c'.2.2 = false := by
            intro c' hc'
            have := h2 c' hc'
            exact Bool.not_eq_true _ ▸ (Bool.eq_false_iff.mpr (by simpa using this))
          refine ⟨[], c, cs, rfl, ?_, by simp, ?_⟩
          · rw [hrun, bestRun_no_improvement cs st' hall]
          · intro c' hc'
            exact (ltBest_some_false _ _).mp (hall c' hc')
      · have hc' : ltBest st.1 c.2.2 = false := Bool.eq_false_iff.mpr (by simpa using hc)
        have hrun : bestRun (c :: cs) st = bestRun cs st := by
          simp only [bestRun, bestStep, hc', Bool.false_eq_true, if_false]
        have h2 : ∃ c' ∈ cs, ltBest st.1 c'.2.2 = true := by
          obtain ⟨c', hmem, hlt⟩ := h
          rcases List.mem_cons.mp hmem with he | hl
          · rw [← he] at hc; exact absurd hlt hc
          · exact ⟨c', hl, hlt⟩
        obtain ⟨l₁, c₀, l₂, hsplit, hres, hbefore, hafter⟩ := ih st h2
        refine ⟨c :: l₁, c₀, l₂, by rw [hsplit]; rfl, by rw [hrun, hres], ?_, hafter⟩
        intro c'' hc''
        rcases List.mem_cons.mp hc'' with he | hl
        · right; rw [he]; exact hc'
        · exact hbefore c'' hl

/-! ### The candidate list -/

theorem mem_cands (values : List ℚ) (i j : ℕ) (s : ℚ) :
    (i, j, s) ∈ cands values ↔
      i ≤ j ∧ j < values.length ∧ s = rangeSum values i j := by
  unfold cands
  rw [List.mem_flatMap]
  constructor
  · rintro ⟨i', hi', hmem⟩
    rw [List.mem_map] at hmem
    obtain ⟨j', hj', heq⟩ := hmem
    obtain ⟨h1, h2, h3⟩ := Prod.mk.injEq .. ▸ heq
    · have hi'' := List.mem_range.mp hi'
      have hj'' := List.mem_range'_1.mp hj'
      subst h1
      cases heq
      refine ⟨hj''.1, by omega, rfl⟩
  · rintro ⟨hij, hjn, rfl⟩
    refine ⟨i, List.mem_range.mpr (by omega), ?_⟩
    rw [List.mem_map]
    exact ⟨j, List.mem_range'_1.mpr ⟨hij, by omega⟩, rfl⟩

theorem cands_ne_nil (values : List ℚ) (h : values ≠ []) : cands values ≠ [] := by
  intro hnil
  have : (0, 0, rangeSum values 0 0) ∈ cands values := by
    rw [mem_cands]
    exact ⟨le_refl 0, List.length_pos.mpr h, rfl⟩
  rw [hnil] at this
  exact List.not_mem_nil _ this

/-- Scan order of the candidate list is lexicographic on `(i, j)`. -/
theorem cands_pairwise_lex (values : List ℚ) :
    (cands values).Pairwise
      (fun c c' => c.1 < c'.1 ∨ (c.1 = c'.1 ∧ c.2.1 < c'.2.1)) := by
  unfold cands
  rw [List.pairwise_flatMap]
  constructor
  · intro i _
    rw [List.pairwise_map]
    have : (List.range' i (values.length - i)).Pairwise (· < ·) := by
      have := List.pairwise_lt_range' i (values.length - i) 1 (by omega)
      simpa using this
    exact this.imp fun h => Or.inr ⟨rfl, h⟩
  · have : (List.range values.length).Pairwise (· < ·) := List.pairwise_lt_range _
    refine this.imp ?_
    intro a b hab
    intro x hx y hy
    rw [List.mem_map] at hx hy
    obtain ⟨jx, _, hjx⟩ := hx
    obtain ⟨jy, _, hjy⟩ := hy
    rw [← hjx, ← hjy]
    exact Or.inl hab

/-- Full characterisation of the brute-force scan on a non-empty input:
it returns the lexicographically first maximum-sum range. -/
theorem naive_spec (values : List ℚ) (h : values ≠ []) :
    ∃ s e : ℕ,
      max_subarray_naive values = ((s : Int), (e : Int), rangeSum values s e) ∧
      s ≤ e ∧ e < values.length ∧
      (∀ i j : ℕ, i ≤ j → j < values.length →
        rangeSum values i j ≤ rangeSum values s e) ∧
      (∀ i j : ℕ, i ≤ j → j < values.length →
        rangeSum values i j = rangeSum values s e → s < i ∨ (s = i ∧ e ≤ j)) := by
  have hn : 0 < values.length := List.length_pos.mpr h
  have hex : ∃ c ∈ cands values, ltBest (none, 0, 0).1 c.2.2 = true := by
    refine ⟨(0, 0, rangeSum values 0 0), ?_, rfl⟩
    rw [mem_cands]
    exact ⟨le_refl 0, hn, rfl⟩
  obtain ⟨l₁, c₀, l₂, hsplit, hres, hbefore, hafter⟩ :=
    bestRun_first_argmax (cands values) (none, 0, 0) hex
  have hc₀mem : c₀ ∈ cands values := by
    rw [hsplit]
    exact List.mem_append_right l₁ (List.mem_cons_self c₀ l₂)
  obtain ⟨s, e, m⟩ := c₀
  rw [mem_cands] at hc₀mem
  obtain ⟨hse, hen, hm⟩ := hc₀mem
  subst hm
  have hmax : ∀ i j : ℕ, i ≤ j → j < values.length →
      rangeSum values i j ≤ rangeSum values s e := by
    intro i j hij hjn
    have hmem : (i, j, rangeSum values i j) ∈ cands values := by
      rw [mem_cands]; exact ⟨hij, hjn, rfl⟩
    rw [hsplit] at hmem
    rcases List.mem_append.mp hmem with hl | hr
    · rcases hbefore _ hl with hlt | hfalse
      · exact le_of_lt hlt
      · simp [ltBest] at hfalse
    · rcases List.mem_cons.mp hr with he | hl₂
      · simp only [Prod.mk.injEq] at he
        rw [he.2.2]
      · exact hafter _ hl₂
  refine ⟨s, e, ?_, hse, hen, hmax, ?_⟩
  · rw [max_subarray_naive_eq_bestRun values h, hres]
    rfl
  · intro i j hij hjn hsum
    have hmem : (i, j, rangeSum values i j) ∈ cands values := by
      rw [mem_cands]; exact ⟨hij, hjn, rfl⟩
    rw [hsplit] at hmem
    rcases List.mem_append.mp hmem with hl | hr
    · rcases hbefore _ hl with hlt | hfalse
      · rw [hsum] at hlt
        exact absurd hlt (lt_irrefl _)
      · simp [ltBest] at hfalse
    · rcases List.mem_cons.mp hr with he | hl₂
      · simp only [Prod.mk.injEq] at he
        right
        exact ⟨he.1.symm, le_of_eq he.2.1.symm⟩
      · have hpw := cands_pairwise_lex values
        rw [hsplit] at hpw
        have hpost := (List.pairwise_append.mp hpw).2.1
        rw [List.pairwise_cons] at hpost
        have := hpost.1 _ hl₂
        rcases this with hlt | ⟨heq, hlt⟩
        · exact Or.inl hlt
        · exact Or.inr ⟨heq, le_of_lt hlt⟩

/-! ## Divide-and-conquer solver and Kadane-style linear solver

The modules max_subarray_dc.py and its `_kadane` helper are consumed by the
repository's tests but their source file is not part of the provided tree;
both are modelled from the specification. -/

/-- Modelled from the spec: the crossing scan of the divide-and-conquer
solver.  Walks the index list `is` (downward from `mid` for the left
extension, upward from `mid+1` for the right one), accumulates a running
sum, and keeps the first strictly-best extension together with its far
boundary index. -/
def crossScan (values : List ℚ) : List ℕ → ℚ → Option (ℚ × ℕ) → Option (ℚ × ℕ)
  | [], _, best => best
  | i :: is, run, best =>
      let run' := run + values.getD i 0
      let best' :=
        match best with
        | none => some (run', i)
        | some (b, bi) => if b < run' then some (run', i) else some (b, bi)
      crossScan values is run' best'

/-- Modelled from the spec: the recursive divide-and-conquer maximum
subarray on the inclusive range `[lo, hi]` (`max_subarray_dc` of
max_subarray_dc.py, whose source file is absent from the tree).  The spec
defines it for `lo ≤ hi`: base case `lo = hi`; otherwise split at
`mid = (lo+hi)/2`, recurse on both halves, compute the best crossing range
from the two extension scans, and of the three candidates keep the one with
strictly greatest sum, preferring left, then crossing, then right on ties.
The extra fuel argument bounds the recursion depth; callers pass
`hi - lo`, which is always sufficient. -/
def max_subarray_dc_fuel (values : List ℚ) : ℕ → ℕ → ℕ → ℕ × ℕ × ℚ
  | 0, lo, _ => (lo, lo, values.getD lo 0)
  | fuel + 1, lo, hi =>
      if hi ≤ lo then (lo, lo, values.getD lo 0)
      else
        let mid := (lo + hi) / 2
        let left := max_subarray_dc_fuel values fuel lo mid
        let right := max_subarray_dc_fuel values fuel (mid + 1) hi
        let lext := crossScan values ((List.range' lo (mid + 1 - lo)).reverse) 0 none
        let rext := crossScan values (List.range' (mid + 1) (hi - mid)) 0 none
        let cross :=
          match lext, rext with
          | some (ls, li), some (rs, ri) => (li, ri, ls + rs)
          | _, _ => (lo, lo, 0)
        let best := left
        let best := if best.2.2 < cross.2.2 then cross else best
        let best := if best.2.2 < right.2.2 then right else best
        best

/-- Modelled from the spec: `max_subarray_dc(values, lo, hi)`. -/
def max_subarray_dc (values : List ℚ) (lo hi : ℕ) : ℕ × ℕ × ℚ :=
  max_subarray_dc_fuel values (hi - lo) lo hi

/-- Modelled from the spec: the wrapper `max_subarray`, which returns the
empty sentinel on an empty sequence and otherwise calls the recursive
routine on the whole range. -/
def max_subarray (values : List ℚ) : Int × Int × ℚ :=
  if values.isEmpty then (-1, -1, 0)
  else
    let r := max_subarray_dc values 0 (values.length - 1)
    ((r.1 : Int), (r.2.1 : Int), r.2.2)

/-- Modelled from the spec: the loop of the Kadane-style linear solver.
State: `cur = (current_start, current_sum)` and
`best = (best_start, best_end, best_sum)`.  At index `i`, extend the
current run when that is not worse than starting fresh at `i`, otherwise
reset; then update the best triple on a strict improvement. -/
def kadaneLoop (values : List ℚ) : List ℕ → ℕ × ℚ → ℕ × ℕ × ℚ → ℕ × ℕ × ℚ
  | [], _, best => best
  | i :: is, cur, best =>
      let v := values.getD i 0
      let cur' := if v ≤ cur.2 + v then (cur.1, cur.2 + v) else (i, v)
      let best' := if best.2.2 < cur'.2 then (cur'.1, i, cur'.2) else best
      kadaneLoop values is cur' best'

/-- Modelled from the spec: the Kadane-style linear solver `_kadane`,
initialised at the first element, scanning the remaining indices.  Empty
input yields the empty sentinel. -/
def _kadane (values : List ℚ) : Int × Int × ℚ :=
  match values with
  | [] => (-1, -1, 0)
  | v :: _ =>
      let r := kadaneLoop values (List.range' 1 (values.length - 1)) (0, v) (0, 0, v)
      ((r.1 : Int), (r.2.1 : Int), r.2.2)

/-! ### Analysis of the crossing scans -/

/-- The accumulated extension sums of a crossing scan, as an explicit
candidate list. -/
def crossAccum (values : List ℚ) : List ℕ → ℚ → List (ℚ × ℕ)
  | [], _ => []
  | i :: is, run =>
      (run + values.getD i 0, i) :: crossAccum values is (run + values.getD i 0)

/-- Pure first-argmax fold over explicit extension candidates. -/
def crossBest : List (ℚ × ℕ) → Option (ℚ × ℕ) → Option (ℚ × ℕ)
  | [], best => best
  | c :: cs, best =>
      let best' :=
        match best with
        | none => some c
        | some (b, bi) => if b < c.1 then some c else some (b, bi)
      crossBest cs best'

theorem crossScan_eq_crossBest (values : List ℚ) :
    ∀ (is : List ℕ) (run : ℚ) (best : Option (ℚ × ℕ)),
      crossScan values is run best = crossBest (crossAccum values is run) best := by
  intro is
  induction is with
  | nil => intro run best; rfl
  | cons i is ih =>
      intro run best
      simp only [crossScan, crossAccum, crossBest]
      exact ih _ _

/-- The result of `crossBest` improves on the initial best and dominates
every candidate; it is either the initial best or one of the candidates. -/
theorem crossBest_spec :
    ∀ (cs : List (ℚ × ℕ)) (b : ℚ) (bi : ℕ),
      ∃ b' bi', crossBest cs (some (b, bi)) = some (b', bi') ∧
        ((b', bi') = (b, bi) ∨ (b', bi') ∈ cs) ∧ b ≤ b' ∧
        ∀ c ∈ cs, c.1 ≤ b' := by
  intro cs
  induction cs with
  | nil => intro b bi; exact ⟨b, bi, rfl, Or.inl rfl, le_refl b, by simp⟩
  | cons c cs ih =>
      intro b bi
      by_cases hlt : b < c.1
      · simp only [crossBest, hlt, if_true]
        obtain ⟨b', bi', hrun, hmem, hle, hdom⟩ := ih c.1 c.2
        refine ⟨b', bi', hrun, ?_, le_of_lt (hlt.trans_le hle), ?_⟩
        · rcases hmem with he | hm
          · right; rw [he]; simp
          · right; exact List.mem_cons_of_mem _ hm
        · intro c' hc'
          rcases List.mem_cons.mp hc' with he | hm
          · rw [he]; exact hle
          · exact hdom c' hm
      · simp only [crossBest, hlt, if_false]
        obtain ⟨b', bi', hrun, hmem, hle, hdom⟩ := ih b bi
        refine ⟨b', bi', hrun, ?_, hle, ?_⟩
        · rcases hmem with he | hm
          · left; exact he
          · right; exact List.mem_cons_of_mem _ hm
        · intro c' hc'
          rcases List.mem_cons.mp hc' with he | hm
          · rw [he]; push_neg at hlt; exact hlt.trans hle
          · exact hdom c' hm

/-- Candidates of the descending left-extension scan `[a, a-1, …, a-k+1]`:
the extension sum at `i` is `run + rangeSum i a`. -/
theorem crossAccum_desc (values : List ℚ) :
    ∀ (k a : ℕ) (run : ℚ), k ≤ a + 1 →
      crossAccum values ((List.range' (a + 1 - k) k).reverse) run =
        ((List.range' (a + 1 - k) k).reverse).map
          (fun i => (run + rangeSum values i a, i)) := by
  intro k
  induction k with
  | zero => intro a run _; rfl
  | succ k ih =>
      intro a run hk
      have hsplit : List.range' (a + 1 - (k + 1)) (k + 1) =
          List.range' (a - k) k ++ [a] := by
        have h1 : a + 1 - (k + 1) = a - k := by omega
        have h2 : List.range' (a - k) (k + 1) = List.range' (a - k) k ++ [a - k + k] := by
          rw [List.range'_1_concat]
        rw [h1, h2]
        congr 2
        omega
      rw [hsplit, List.reverse_append]
      simp only [List.reverse_singleton, List.singleton_append, List.append_eq,
        List.nil_append, crossAccum, List.map_cons]
      rw [rangeSum_same]
      congr 1
      by_cases hk0 : k = 0
      · subst hk0; rfl
      · have ha1 : 1 ≤ a := by omega
        have hrw : List.range' (a - k) k = List.range' ((a - 1) + 1 - k) k := by
          congr 1
          omega
        rw [hrw, ih (a - 1) _ (by omega)]
        apply List.map_congr_left
        intro i hi
        rw [List.mem_reverse] at hi
        have hia : i ≤ a - 1 := by
          have := List.mem_range'_1.mp hi
          omega
        have hsum : rangeSum values i a = rangeSum values i (a - 1) + values.getD a 0 := by
          have : a = (a - 1) + 1 := by omega
          rw [this]
          exact rangeSum_succ values (by omega)
        rw [hsum]
        rw [List.getD_eq_getElem?_getD]
        ring_nf

/-- Candidates of the ascending right-extension scan `[a, a+1, …]`:
the extension sum at `j` is `run + rangeSum a j`. -/
theorem crossAccum_asc (values : List ℚ) :
    ∀ (k a : ℕ) (run : ℚ),
      crossAccum values (List.range' a k) run =
        (List.range' a k).map (fun j => (run + rangeSum values a j, j)) := by
  intro k
  induction k with
  | zero => intro a run; rfl
  | succ k ih =>
      intro a run
      rw [List.range'_succ]
      simp only [crossAccum, List.map_cons, rangeSum_same]
      congr 1
      rw [ih (a + 1) _]
      apply List.map_congr_left
      intro j hj
      have haj : a + 1 ≤ j := by
        have := List.mem_range'_1.mp hj
        omega
      have : rangeSum values a j = values.getD a 0 + rangeSum values (a + 1) j := by
        rw [rangeSum_split values (le_refl a) (by omega), rangeSum_same]
      rw [this]
      simp [add_assoc]

/-- A crossing scan over a non-empty index list whose accumulated
candidates are `(f i, i)` returns an index of `L` achieving the maximum
of `f` over `L`. -/
theorem crossScan_spec (values : List ℚ) (f : ℕ → ℚ) (L : List ℕ) (hL : L ≠ [])
    (hacc : crossAccum values L 0 = L.map fun i => (f i, i)) :
    ∃ b bi, crossScan values L 0 none = some (b, bi) ∧ bi ∈ L ∧ b = f bi ∧
      ∀ i ∈ L, f i ≤ b := by
  rcases L with _ | ⟨c, cs⟩
  · exact absurd rfl hL
  · rw [crossScan_eq_crossBest, hacc]
    simp only [List.map_cons]
    have hstep : crossBest ((f c, c) :: cs.map fun i => (f i, i)) none =
        crossBest (cs.map fun i => (f i, i)) (some (f c, c)) := rfl
    rw [hstep]
    obtain ⟨b', bi', hrun, hmem, hle, hdom⟩ := crossBest_spec (cs.map fun i => (f i, i)) (f c) c
    refine ⟨b', bi', hrun, ?_, ?_, ?_⟩
    · rcases hmem with he | hm
      · simp only [Prod.mk.injEq] at he
        rw [he.2]
        exact List.mem_cons_self _ _
      · rw [List.mem_map] at hm
        obtain ⟨i, hi, he⟩ := hm
        simp only [Prod.mk.injEq] at he
        rw [← he.2]
        exact List.mem_cons_of_mem _ hi
    · rcases hmem with he | hm
      · simp only [Prod.mk.injEq] at he
        rw [he.1, he.2]
      · rw [List.mem_map] at hm
        obtain ⟨i, hi, he⟩ := hm
        simp only [Prod.mk.injEq] at he
        rw [← he.1, ← he.2]
    · intro i hi
      rcases List.mem_cons.mp hi with he | hm
      · rw [he]; exact hle
      · exact hdom (f i, i) (List.mem_map_of_mem _ hm)

/-- Specification of the left-extension scan: it finds the best extension
sum ending at `mid` and starting in `[lo, mid]`. -/
theorem crossScan_left_spec (values : List ℚ) (lo mid : ℕ) (h : lo ≤ mid) :
    ∃ b bi, crossScan values ((List.range' lo (mid + 1 - lo)).reverse) 0 none = some (b, bi) ∧
      lo ≤ bi ∧ bi ≤ mid ∧ b = rangeSum values bi mid ∧
      ∀ i, lo ≤ i → i ≤ mid → rangeSum values i mid ≤ b := by
  have hrange : List.range' lo (mid + 1 - lo) =
      List.range' (mid + 1 - (mid + 1 - lo)) (mid + 1 - lo) := by
    congr 1
    omega
  have hacc : crossAccum values ((List.range' lo (mid + 1 - lo)).reverse) 0 =
      ((List.range' lo (mid + 1 - lo)).reverse).map
        fun i => (rangeSum values i mid, i) := by
    rw [hrange, crossAccum_desc values (mid + 1 - lo) mid 0 (by omega)]
    apply List.map_congr_left
    intro i _
    rw [zero_add]
  have hne : (List.range' lo (mid + 1 - lo)).reverse ≠ [] := by
    simp only [ne_eq, List.reverse_eq_nil_iff]
    intro hnil
    have := congrArg List.length hnil
    simp at this
    omega
  obtain ⟨b, bi, hrun, hmem, hval, hdom⟩ :=
    crossScan_spec values (fun i => rangeSum values i mid) _ hne hacc
  rw [List.mem_reverse, List.mem_range'_1] at hmem
  refine ⟨b, bi, hrun, hmem.1, by omega, hval, ?_⟩
  intro i h1 h2
  exact hdom i (by rw [List.mem_reverse, List.mem_range'_1]; omega)

/-- Specification of the right-extension scan: it finds the best extension
sum starting at `mid + 1` and ending in `[mid + 1, hi]`. -/
theorem crossScan_right_spec (values : List ℚ) (mid hi : ℕ) (h : mid < hi) :
    ∃ b bi, crossScan values (List.range' (mid + 1) (hi - mid)) 0 none = some (b, bi) ∧
      mid + 1 ≤ bi ∧ bi ≤ hi ∧ b = rangeSum values (mid + 1) bi ∧
      ∀ j, mid + 1 ≤ j → j ≤ hi → rangeSum values (mid + 1) j ≤ b := by
  have hacc : crossAccum values (List.range' (mid + 1) (hi - mid)) 0 =
      (List.range' (mid + 1) (hi - mid)).map
        fun j => (rangeSum values (mid + 1) j, j) := by
    rw [crossAccum_asc]
    apply List.map_congr_left
    intro j _
    rw [zero_add]
  have hne : List.range' (mid + 1) (hi - mid) ≠ [] := by
    intro hnil
    have := congrArg List.length hnil
    simp at this
    omega
  obtain ⟨b, bi, hrun, hmem, hval, hdom⟩ :=
    crossScan_spec values (fun j => rangeSum values (mid + 1) j) _ hne hacc
  rw [List.mem_range'_1] at hmem
  refine ⟨b, bi, hrun, hmem.1, by omega, hval, ?_⟩
  intro j h1 h2
  exact hdom j (by rw [List.mem_range'_1]; omega)

/-- Full functional correctness of the divide-and-conquer recursion:
on a valid range `[lo, hi]` with enough fuel it returns an in-range pair
with its exact sum, maximal among all subranges of `[lo, hi]`. -/
theorem dc_spec (values : List ℚ) :
    ∀ (fuel lo hi : ℕ), hi - lo ≤ fuel → lo ≤ hi →
      lo ≤ (max_subarray_dc_fuel values fuel lo hi).1 ∧
      (max_subarray_dc_fuel values fuel lo hi).1 ≤ (max_subarray_dc_fuel values fuel lo hi).2.1 ∧
      (max_subarray_dc_fuel values fuel lo hi).2.1 ≤ hi ∧
      (max_subarray_dc_fuel values fuel lo hi).2.2 =
        rangeSum values (max_subarray_dc_fuel values fuel lo hi).1
          (max_subarray_dc_fuel values fuel lo hi).2.1 ∧
      ∀ i j : ℕ, lo ≤ i → i ≤ j → j ≤ hi →
        rangeSum values i j ≤ (max_subarray_dc_fuel values fuel lo hi).2.2 := by
  intro fuel
  induction fuel with
  | zero =>
      intro lo hi hfuel hlohi
      have heq : lo = hi := by omega
      subst heq
      simp only [max_subarray_dc_fuel]
      refine ⟨le_refl lo, le_refl lo, le_refl lo, (rangeSum_same values lo).symm, ?_⟩
      intro i j h1 h2 h3
      have hi : i = lo := by omega
      have hj : j = lo := by omega
      subst hi; subst hj
      rw [rangeSum_same]
  | succ fuel ih =>
      intro lo hi hfuel hlohi
      by_cases hbase : hi ≤ lo
      · have heq : lo = hi := by omega
        subst heq
        simp only [max_subarray_dc_fuel, if_pos (le_refl lo)]
        refine ⟨le_refl lo, le_refl lo, le_refl lo, (rangeSum_same values lo).symm, ?_⟩
        intro i j h1 h2 h3
        have hi : i = lo := by omega
        have hj : j = lo := by omega
        subst hi; subst hj
        rw [rangeSum_same]
      · push_neg at hbase
        have hmid1 : lo ≤ (lo + hi) / 2 := by omega
        have hmid2 : (lo + hi) / 2 < hi := by omega
        set mid := (lo + hi) / 2 with hmiddef
        obtain ⟨ls, li, hlrun, hli1, hli2, hlval, hldom⟩ :=
          crossScan_left_spec values lo mid hmid1
        obtain ⟨rs, ri, hrrun, hri1, hri2, hrval, hrdom⟩ :=
          crossScan_right_spec values mid hi hmid2
        obtain ⟨hL1, hL2, hL3, hL4, hL5⟩ := ih lo mid (by omega) (by omega)
        obtain ⟨hR1, hR2, hR3, hR4, hR5⟩ := ih (mid + 1) hi (by omega) (by omega)
        set left := max_subarray_dc_fuel values fuel lo mid with hleftdef
        set right := max_subarray_dc_fuel values fuel (mid + 1) hi with hrightdef
        have hunfold : max_subarray_dc_fuel values (fuel + 1) lo hi =
            (let cross := (li, ri, ls + rs)
             let best := left
             let best := if best.2.2 < cross.2.2 then cross else best
             let best := if best.2.2 < right.2.2 then right else best
             best) := by
          simp only [max_subarray_dc_fuel, if_neg (not_le.mpr hbase), ← hmiddef,
            hlrun, hrrun, ← hleftdef, ← hrightdef]
        have hcross_sum : ls + rs = rangeSum values li ri := by
          rw [hlval, hrval]
          exact (rangeSum_split values hli2 (by omega)).symm
        have hcross_dom : ∀ i j : ℕ, lo ≤ i → i ≤ mid → mid < j → j ≤ hi →
            rangeSum values i j ≤ ls + rs := by
          intro i j h1 h2 h3 h4
          rw [rangeSum_split values h2 h3]
          exact add_le_add (hldom i h1 h2) (hrdom j (by omega) h4)
        rw [hunfold]
        simp only []
        by_cases hc1 : left.2.2 < ls + rs
        · by_cases hc2 : (if left.2.2 < (li, ri, ls + rs).2.2 then (li, ri, ls + rs)
              else left).2.2 < right.2.2
          · simp only [hc1, if_true] at hc2 ⊢
            rw [if_pos hc2]
            refine ⟨by omega, hR2, hR3, hR4, ?_⟩
            intro i j h1 h2 h3
            rcases le_or_lt j mid with hj | hj
            · calc rangeSum values i j ≤ left.2.2 := hL5 i j h1 h2 hj
                _ ≤ ls + rs := le_of_lt hc1
                _ ≤ right.2.2 := by simpa using le_of_lt hc2
            · rcases le_or_lt i mid with hi | hi
              · calc rangeSum values i j ≤ ls + rs := hcross_dom i j h1 hi hj h3
                  _ ≤ right.2.2 := by simpa using le_of_lt hc2
              · exact hR5 i j hi h2 h3
          · simp only [hc1, if_true] at hc2 ⊢
            rw [if_neg hc2]
            push_neg at hc2
            refine ⟨show lo ≤ li by omega, show li ≤ ri by omega,
              show ri ≤ hi by omega, hcross_sum, ?_⟩
            intro i j h1 h2 h3
            rcases le_or_lt j mid with hj | hj
            · calc rangeSum values i j ≤ left.2.2 := hL5 i j h1 h2 hj
                _ ≤ ls + rs := le_of_lt hc1
            · rcases le_or_lt i mid with hi | hi
              · exact hcross_dom i j h1 hi hj h3
              · exact (hR5 i j hi h2 h3).trans hc2
        · by_cases hc2 : (if left.2.2 < (li, ri, ls + rs).2.2 then (li, ri, ls + rs)
              else left).2.2 < right.2.2
          · simp only [hc1, if_false] at hc2 ⊢
            rw [if_pos hc2]
            refine ⟨by omega, hR2, hR3, hR4, ?_⟩
            intro i j h1 h2 h3
            push_neg at hc1
            rcases le_or_lt j mid with hj | hj
            · exact (hL5 i j h1 h2 hj).trans (le_of_lt hc2)
            · rcases le_or_lt i mid with hi | hi
              · exact ((hcross_dom i j h1 hi hj h3).trans hc1).trans (le_of_lt hc2)
              · exact hR5 i j hi h2 h3
          · simp only [hc1, if_false] at hc2 ⊢
            rw [if_neg hc2]
            push_neg at hc1 hc2
            refine ⟨hL1, hL2, by omega, hL4, ?_⟩
            intro i j h1 h2 h3
            rcases le_or_lt j mid with hj | hj
            · exact hL5 i j h1 h2 hj
            · rcases le_or_lt i mid with hi | hi
              · exact (hcross_dom i j h1 hi hj h3).trans hc1
              · exact (hR5 i j hi h2 h3).trans hc2

/-- Invariant of the Kadane-style loop: `(cs, csum)` is the best run ending
at the last processed index `p` and `(bs, be, bsum)` the best range seen so
far; the loop extends this to the remaining indices `p+1, …, p+k`. -/
theorem kadaneLoop_spec (values : List ℚ) :
    ∀ (k p : ℕ) (cs : ℕ) (csum : ℚ) (bs be : ℕ) (bsum : ℚ),
      cs ≤ p →
      csum = rangeSum values cs p →
      (∀ a : ℕ, a ≤ p → rangeSum values a p ≤ csum) →
      bs ≤ be → be ≤ p →
      bsum = rangeSum values bs be →
      (∀ a b : ℕ, a ≤ b → b ≤ p → rangeSum values a b ≤ bsum) →
      (kadaneLoop values (List.range' (p + 1) k) (cs, csum) (bs, be, bsum)).1 ≤
        (kadaneLoop values (List.range' (p + 1) k) (cs, csum) (bs, be, bsum)).2.1 ∧
      (kadaneLoop values (List.range' (p + 1) k) (cs, csum) (bs, be, bsum)).2.1 ≤ p + k ∧
      (kadaneLoop values (List.range' (p + 1) k) (cs, csum) (bs, be, bsum)).2.2 =
        rangeSum values (kadaneLoop values (List.range' (p + 1) k) (cs, csum) (bs, be, bsum)).1
          (kadaneLoop values (List.range' (p + 1) k) (cs, csum) (bs, be, bsum)).2.1 ∧
      ∀ a b : ℕ, a ≤ b → b ≤ p + k →
        rangeSum values a b ≤
          (kadaneLoop values (List.range' (p + 1) k) (cs, csum) (bs, be, bsum)).2.2 := by
  intro k
  induction k with
  | zero =>
      intro p cs csum bs be bsum hcs hcsum hcmax hbs hbe hbsum hbmax
      simp only [List.range', kadaneLoop]
      exact ⟨hbs, by omega, hbsum, fun a b hab hbp => hbmax a b hab (by omega)⟩
  | succ k ih =>
      intro p cs csum bs be bsum hcs hcsum hcmax hbs hbe hbsum hbmax
      rw [List.range'_succ]
      simp only [kadaneLoop]
      have hgetd : rangeSum values (p + 1) (p + 1) = values.getD (p + 1) 0 :=
        rangeSum_same values (p + 1)
      by_cases hext : values.getD (p + 1) 0 ≤ csum + values.getD (p + 1) 0
      · rw [if_pos hext]
        have hcsum' : csum + values.getD (p + 1) 0 = rangeSum values cs (p + 1) := by
          rw [rangeSum_succ values (by omega), hcsum]
        have hcmax' : ∀ a : ℕ, a ≤ p + 1 →
            rangeSum values a (p + 1) ≤ csum + values.getD (p + 1) 0 := by
          intro a ha
          rcases Nat.lt_or_ge a (p + 1) with ha' | ha'
          · rw [rangeSum_succ values (by omega)]
            exact add_le_add_right (hcmax a (by omega)) _
          · have : a = p + 1 := by omega
            subst this
            rw [hgetd]
            exact hext
        by_cases hupd : bsum < csum + values.getD (p + 1) 0
        · rw [if_pos hupd]
          dsimp only
          have := ih (p + 1) cs (csum + values.getD (p + 1) 0) cs (p + 1)
            (csum + values.getD (p + 1) 0) (by omega) hcsum' hcmax' (by omega)
            (le_refl _) hcsum' (fun a b hab hbp => by
              rcases Nat.lt_or_ge b (p + 1) with hb' | hb'
              · exact ((hbmax a b hab (by omega)).trans (le_of_lt hupd))
              · have : b = p + 1 := by omega
                subst this
                exact hcmax' a hab)
          refine ⟨this.1, by omega, this.2.2.1, fun a b hab hbp => this.2.2.2 a b hab (by omega)⟩
        · rw [if_neg hupd]
          push_neg at hupd
          have := ih (p + 1) cs (csum + values.getD (p + 1) 0) bs be bsum (by omega)
            hcsum' hcmax' hbs (by omega) hbsum (fun a b hab hbp => by
              rcases Nat.lt_or_ge b (p + 1) with hb' | hb'
              · exact hbmax a b hab (by omega)
              · have : b = p + 1 := by omega
                subst this
                exact (hcmax' a hab).trans hupd)
          refine ⟨this.1, by omega, this.2.2.1, fun a b hab hbp => this.2.2.2 a b hab (by omega)⟩
      · rw [if_neg hext]
        push_neg at hext
        have hcsum' : values.getD (p + 1) 0 = rangeSum values (p + 1) (p + 1) := hgetd.symm
        have hcmax' : ∀ a : ℕ, a ≤ p + 1 →
            rangeSum values a (p + 1) ≤ values.getD (p + 1) 0 := by
          intro a ha
          rcases Nat.lt_or_ge a (p + 1) with ha' | ha'
          · rw [rangeSum_succ values (by omega)]
            exact le_of_lt ((add_le_add_right (hcmax a (by omega)) _).trans_lt hext)
          · have : a = p + 1 := by omega
            subst this
            rw [hgetd]
        by_cases hupd : bsum < values.getD (p + 1) 0
        · rw [if_pos hupd]
          dsimp only
          have := ih (p + 1) (p + 1) (values.getD (p + 1) 0) (p + 1) (p + 1)
            (values.getD (p + 1) 0) (le_refl _) hcsum' hcmax' (le_refl _)
            (le_refl _) hcsum' (fun a b hab hbp => by
              rcases Nat.lt_or_ge b (p + 1) with hb' | hb'
              · exact ((hbmax a b hab (by omega)).trans (le_of_lt hupd))
              · have : b = p + 1 := by omega
                subst this
                exact hcmax' a hab)
          refine ⟨this.1, by omega, this.2.2.1, fun a b hab hbp => this.2.2.2 a b hab (by omega)⟩
        · rw [if_neg hupd]
          push_neg at hupd
          have := ih (p + 1) (p + 1) (values.getD (p + 1) 0) bs be bsum (le_refl _)
            hcsum' hcmax' hbs (by omega) hbsum (fun a b hab hbp => by
              rcases Nat.lt_or_ge b (p + 1) with hb' | hb'
              · exact hbmax a b hab (by omega)
              · have : b = p + 1 := by omega
                subst this
                exact (hcmax' a hab).trans hupd)
          refine ⟨this.1, by omega, this.2.2.1, fun a b hab hbp => this.2.2.2 a b hab (by omega)⟩

/-- Full functional correctness of the Kadane-style solver on non-empty
input. -/
theorem kadane_spec (values : List ℚ) (h : values ≠ []) :
    ∃ s e : ℕ,
      _kadane values = ((s : Int), (e : Int), rangeSum values s e) ∧
      s ≤ e ∧ e < values.length ∧
      ∀ i j : ℕ, i ≤ j → j < values.length →
        rangeSum values i j ≤ rangeSum values s e := by
  rcases values with _ | ⟨v, rest⟩
  · exact absurd rfl h
  · have hv0 : rangeSum (v :: rest) 0 0 = v := by
      rw [rangeSum_same]; rfl
    have := kadaneLoop_spec (v :: rest) ((v :: rest).length - 1) 0 0 v 0 0 v
      (le_refl 0) hv0.symm
      (fun a ha => by
        have : a = 0 := by omega
        subst this
        rw [hv0])
      (le_refl 0) (le_refl 0) hv0.symm
      (fun a b hab hbp => by
        have ha : a = 0 := by omega
        have hb : b = 0 := by omega
        subst ha; subst hb
        rw [hv0])
    set r := kadaneLoop (v :: rest) (List.range' 1 ((v :: rest).length - 1)) (0, v) (0, 0, v)
      with hr
    obtain ⟨h1, h2, h3, h4⟩ := this
    refine ⟨r.1, r.2.1, ?_, h1, by simp at h2 ⊢; omega, ?_⟩
    · show _kadane (v :: rest) = _
      simp only [_kadane]
      rw [← hr, ← h3]
    · intro i j hij hjn
      have := h4 i j hij (by simp at hjn ⊢; omega)
      rw [← h3]
      exact this

/-! ## Claim theorems for the max-subarray family -/

/-- C3: for every non-empty list `values` of length `n`,
`max_subarray_naive` returns a triple `(start, end, sum)` with
`0 ≤ start ≤ end < n`, `sum` equal to the exact total of
`values[start..end]`, and `sum` greater than or equal to the sum of every
contiguous range `[i, j]` with `0 ≤ i ≤ j < n`. -/
theorem C3_max_subarray_naive_correct (values : List ℚ) (h : values ≠ []) :
    ∃ s e : ℕ,
      max_subarray_naive values = ((s : Int), (e : Int), rangeSum values s e) ∧
      s ≤ e ∧ e < values.length ∧
      ∀ i j : ℕ, i ≤ j → j < values.length →
        rangeSum values i j ≤ rangeSum values s e := by
  obtain ⟨s, e, heq, hse, hen, hmax, _⟩ := naive_spec values h
  exact ⟨s, e, heq, hse, hen, hmax⟩

theorem C3_max_subarray_naive_correct_witness :
    ([(1 : ℚ), -2, 3] ≠ []) ∧
    ∃ s e : ℕ,
      max_subarray_naive [(1 : ℚ), -2, 3] =
        ((s : Int), (e : Int), rangeSum [(1 : ℚ), -2, 3] s e) ∧
      s ≤ e ∧ e < ([(1 : ℚ), -2, 3] : List ℚ).length ∧
      ∀ i j : ℕ, i ≤ j → j < ([(1 : ℚ), -2, 3] : List ℚ).length →
        rangeSum [(1 : ℚ), -2, 3] i j ≤ rangeSum [(1 : ℚ), -2, 3] s e :=
  ⟨by simp, C3_max_subarray_naive_correct [(1 : ℚ), -2, 3] (by simp)⟩

/-- C8: for every non-empty list, among all maximum-sum contiguous ranges
`max_subarray_naive` returns the first-found one under its scan order: the
smallest start index, and among those the smallest end index; a later range
with sum equal to the current best never replaces it. -/
theorem C8_max_subarray_naive_first_found (values : List ℚ) (h : values ≠ []) :
    ∃ s e : ℕ,
      max_subarray_naive values = ((s : Int), (e : Int), rangeSum values s e) ∧
      ∀ i j : ℕ, i ≤ j → j < values.length →
        rangeSum values i j = rangeSum values s e →
        s < i ∨ (s = i ∧ e ≤ j) := by
  obtain ⟨s, e, heq, _, _, _, hfirst⟩ := naive_spec values h
  exact ⟨s, e, heq, hfirst⟩

theorem C8_max_subarray_naive_first_found_witness :
    ([(2 : ℚ), -2, 2] ≠ []) ∧
    ∃ s e : ℕ,
      max_subarray_naive [(2 : ℚ), -2, 2] =
        ((s : Int), (e : Int), rangeSum [(2 : ℚ), -2, 2] s e) ∧
      ∀ i j : ℕ, i ≤ j → j < ([(2 : ℚ), -2, 2] : List ℚ).length →
        rangeSum [(2 : ℚ), -2, 2] i j = rangeSum [(2 : ℚ), -2, 2] s e →
        s < i ∨ (s = i ∧ e ≤ j) :=
  ⟨by simp, C8_max_subarray_naive_first_found [(2 : ℚ), -2, 2] (by simp)⟩

/-- C4: for every non-empty list `values`, the divide-and-conquer solver
(via `max_subarray_dc` and its wrapper `max_subarray`), the Kadane-style
linear solver, and the brute-force oracle return equal sums `M`, and each
returns the index range of some maximum-sum contiguous range (the chosen
index pairs may differ only between ranges of equal sum `M`). -/
theorem C4_solvers_agree (values : List ℚ) (h : values ≠ []) :
    ∃ M : ℚ,
      (∀ i j : ℕ, i ≤ j → j < values.length → rangeSum values i j ≤ M) ∧
      (∃ s e : ℕ, s ≤ e ∧ e < values.length ∧ rangeSum values s e = M ∧
        max_subarray values = ((s : Int), (e : Int), M)) ∧
      (∃ s e : ℕ, s ≤ e ∧ e < values.length ∧ rangeSum values s e = M ∧
        max_subarray_dc values 0 (values.length - 1) = (s, e, M)) ∧
      (∃ s e : ℕ, s ≤ e ∧ e < values.length ∧ rangeSum values s e = M ∧
        _kadane values = ((s : Int), (e : Int), M)) ∧
      (∃ s e : ℕ, s ≤ e ∧ e < values.length ∧ rangeSum values s e = M ∧
        max_subarray_naive values = ((s : Int), (e : Int), M)) := by
  have hn : 0 < values.length := List.length_pos.mpr h
  obtain ⟨ns, ne, hnaive, hnse, hnen, hnmax, _⟩ := naive_spec values h
  obtain ⟨hD1, hD2, hD3, hD4, hD5⟩ :=
    dc_spec values (values.length - 1 - 0) 0 (values.length - 1) (le_refl _) (by omega)
  set rd := max_subarray_dc_fuel values (values.length - 1 - 0) 0 (values.length - 1)
    with hrd
  obtain ⟨ks, ke, hkad, hkse, hken, hkmax⟩ := kadane_spec values h
  refine ⟨rangeSum values ns ne, hnmax, ?_, ?_, ?_, ?_⟩
  · have hsum : rd.2.2 = rangeSum values ns ne :=
      le_antisymm (hD4.trans_le (hnmax rd.1 rd.2.1 hD2 (by omega)))
        (hD5 ns ne (by omega) hnse (by omega))
    refine ⟨rd.1, rd.2.1, hD2, by omega, hD4.symm.trans hsum, ?_⟩
    unfold max_subarray
    rw [if_neg (by simpa using h)]
    show ((rd.1 : Int), (rd.2.1 : Int), rd.2.2) = _
    rw [hsum]
  · have hsum : rd.2.2 = rangeSum values ns ne :=
      le_antisymm (hD4.trans_le (hnmax rd.1 rd.2.1 hD2 (by omega)))
        (hD5 ns ne (by omega) hnse (by omega))
    refine ⟨rd.1, rd.2.1, hD2, by omega, hD4.symm.trans hsum, ?_⟩
    show rd = _
    rw [← hsum]
  · refine ⟨ks, ke, hkse, hken, ?_, ?_⟩
    · exact le_antisymm (hnmax ks ke hkse hken) (hkmax ns ne hnse hnen)
    · rw [hkad]
      have : rangeSum values ks ke = rangeSum values ns ne :=
        le_antisymm (hnmax ks ke hkse hken) (hkmax ns ne hnse hnen)
      rw [this]
  · exact ⟨ns, ne, hnse, hnen, rfl, hnaive⟩

theorem C4_solvers_agree_witness :
    ([(1 : ℚ), -2, 3] ≠ []) ∧
    ∃ M : ℚ,
      (∀ i j : ℕ, i ≤ j → j < ([(1 : ℚ), -2, 3] : List ℚ).length →
        rangeSum [(1 : ℚ), -2, 3] i j ≤ M) ∧
      (∃ s e : ℕ, s ≤ e ∧ e < ([(1 : ℚ), -2, 3] : List ℚ).length ∧
        rangeSum [(1 : ℚ), -2, 3] s e = M ∧
        max_subarray [(1 : ℚ), -2, 3] = ((s : Int), (e : Int), M)) ∧
      (∃ s e : ℕ, s ≤ e ∧ e < ([(1 : ℚ), -2, 3] : List ℚ).length ∧
        rangeSum [(1 : ℚ), -2, 3] s e = M ∧
        max_subarray_dc [(1 : ℚ), -2, 3] 0 (([(1 : ℚ), -2, 3] : List ℚ).length - 1) =
          (s, e, M)) ∧
      (∃ s e : ℕ, s ≤ e ∧ e < ([(1 : ℚ), -2, 3] : List ℚ).length ∧
        rangeSum [(1 : ℚ), -2, 3] s e = M ∧
        _kadane [(1 : ℚ), -2, 3] = ((s : Int), (e : Int), M)) ∧
      (∃ s e : ℕ, s ≤ e ∧ e < ([(1 : ℚ), -2, 3] : List ℚ).length ∧
        rangeSum [(1 : ℚ), -2, 3] s e = M ∧
        max_subarray_naive [(1 : ℚ), -2, 3] = ((s : Int), (e : Int), M)) :=
  ⟨by simp, C4_solvers_agree [(1 : ℚ), -2, 3] (by simp)⟩

/-- C7: for the empty input list, every max-subarray entry point — the
wrapper `max_subarray` (which guards the recursive `max_subarray_dc`), the
Kadane-style solver, and `max_subarray_naive` — returns the sentinel
`(-1, -1, 0)`. -/
theorem C7_empty_sentinel :
    max_subarray ([] : List ℚ) = (-1, -1, 0) ∧
    _kadane ([] : List ℚ) = (-1, -1, 0) ∧
    max_subarray_naive ([] : List ℚ) = (-1, -1, 0) :=
  ⟨rfl, rfl, rfl⟩

/-! ## EV trip planning: the DP oracle (src/Greedy/naive_baseline.py) -/

/-- The station-validation loop of `_validate_inputs`: each position must
lie strictly between `0` and `D` (checked first) and strictly above the
previous one (`last` starts at `0.0`). -/
def validateLoop (D : ℚ) : List ℚ → ℚ → Except String Unit
  | [], _ => .ok ()
  | pos :: rest, last =>
      if pos ≤ 0 ∨ D ≤ pos then
        .error "station positions must lie strictly between 0 and D"
      else if pos ≤ last then
        .error "station positions must be strictly increasing"
      else validateLoop D rest pos

/-- `_validate_inputs` of src/Greedy/naive_baseline.py. -/
def _validate_inputs (positions : List ℚ) (D R : ℚ) : Except String Unit :=
  if R ≤ 0 then .error "range must be positive"
  else if D < 0 then .error "destination must be non-negative"
  else validateLoop D positions 0

/-- Inner `for i in range(j)` loop of the DP in `min_stops_dp`: find the
best predecessor of waypoint `j`, skipping predecessors farther than `R`,
proposing `stops_needed[i]` plus one except for the destination, and
updating on a strict improvement. -/
def dpInnerGo (augmented : List ℚ) (R : ℚ) (stopsNeeded : List ℕ)
    (destIdx unreachable j : ℕ) : List ℕ → ℕ × Int → ℕ × Int
  | [], acc => acc
  | i :: is, acc =>
      let acc' :=
        if R < augmented.getD j 0 - augmented.getD i 0 then acc
        else
          let proposed := stopsNeeded.getD i unreachable +
            (if j = destIdx then 0 else 1)
          if proposed < acc.1 then (proposed, (i : Int)) else acc
      dpInnerGo augmented R stopsNeeded destIdx unreachable j is acc'

/-- Outer `for j in range(1, n)` loop of the DP: fill `stops_needed[j]` and
`predecessor[j]` from the inner loop's result. -/
def dpOuter (augmented : List ℚ) (R : ℚ) (destIdx unreachable : ℕ) :
    List ℕ → List ℕ × List Int → List ℕ × List Int
  | [], st => st
  | j :: js, st =>
      let best := dpInnerGo augmented R st.1 destIdx unreachable j
        (List.range j) (unreachable, -1)
      dpOuter augmented R destIdx unreachable js
        (st.1.set j best.1, st.2.set j best.2)

/-- The reconstruction loop of `min_stops_dp`: walk the predecessor chain
down from the destination, appending every intermediate waypoint, stopping
at the origin or at a `-1` predecessor.  The fuel argument bounds the
number of iterations; callers pass the waypoint count, which is always
sufficient since predecessors strictly decrease. -/
def backtrack (augmented : List ℚ) (predecessor : List Int) (destIdx : ℕ) :
    ℕ → ℕ → List ℚ → List ℚ
  | 0, _, acc => acc
  | fuel + 1, cursor, acc =>
      if cursor = 0 then acc
      else
        let pred := predecessor.getD cursor (-1)
        if pred = -1 then acc
        else
          let acc' := if cursor ≠ destIdx then acc ++ [augmented.getD cursor 0] else acc
          backtrack augmented predecessor destIdx fuel pred.toNat acc'

/-- `min_stops_dp` of src/Greedy/naive_baseline.py: minimal number of
charging stops via quadratic DP over the augmented waypoint sequence
`(0, stations…, D)`, with one witnessing stop sequence reconstructed from
the predecessor array. -/
def min_stops_dp (sorted_positions : List ℚ) (D R : ℚ) :
    Except String (ℕ × List ℚ) :=
  match _validate_inputs sorted_positions D R with
  | .error e => .error e
  | .ok () =>
      if D = 0 then .ok (0, [])
      else
        let augmented := 0 :: sorted_positions ++ [D]
        let n := augmented.length
        let destIdx := n - 1
        let unreachable := n + 1
        let tables := dpOuter augmented R destIdx unreachable
          (List.range' 1 (n - 1))
          ((List.replicate n unreachable).set 0 0, List.replicate n (-1))
        if unreachable ≤ tables.1.getD destIdx unreachable then
          .error "infeasible"
        else
          let stops := backtrack augmented tables.2 destIdx n destIdx []
          .ok (tables.1.getD destIdx 0, stops.reverse)

/-! ## Trip-geometry semantics -/

/-- A valid trip geometry: positive range, non-negative destination,
strictly increasing station positions strictly inside `(0, D)`. -/
def ValidGeometry (positions : List ℚ) (D R : ℚ) : Prop :=
  0 < R ∧ 0 ≤ D ∧ positions.Chain' (· < ·) ∧ ∀ p ∈ positions, 0 < p ∧ p < D

/-- A directly-reducing decision procedure for strict increasing chains,
used so that concrete geometries can be checked by evaluation. -/
def validChainDec : (l : List ℚ) → Decidable (List.Chain' (· < ·) l)
  | [] => isTrue List.chain'_nil
  | [a] => isTrue (List.chain'_singleton a)
  | a :: b :: t =>
      match validChainDec (b :: t) with
      | isTrue h =>
          if hab : a < b then isTrue (List.chain'_cons.mpr ⟨hab, h⟩)
          else isFalse fun hc => hab (List.chain'_cons.mp hc).1
      | isFalse h => isFalse fun hc => h (List.chain'_cons.mp hc).2

instance (l : List ℚ) : Decidable (List.Chain' (· < ·) l) := validChainDec l

instance (positions : List ℚ) (D R : ℚ) : Decidable (ValidGeometry positions D R) :=
  inferInstanceAs (Decidable (_ ∧ _ ∧ _ ∧ _))

/-- A stop plan: a subsequence of the stations such that the hops
origin → first stop, between consecutive stops, and last stop → `D` are
each of length at most `R`. -/
def IsStopPlan (positions : List ℚ) (D R : ℚ) (plan : List ℚ) : Prop :=
  plan.Sublist positions ∧ (0 :: plan ++ [D]).Chain' (fun a b => b - a ≤ R)

/-! ## The greedy planner (spec-modelled)

The module ev_greedy.py is consumed by the repository's tests but its
source file is not part of the provided tree; the greedy planner is
modelled from the specification. -/

/-- Modelled from the spec: the loop of `plan_stops_sorted` of
ev_greedy.py (whose source file is absent from the tree).  Repeatedly: if
the destination is within range of the current position, finish without
adding a stop; otherwise select the farthest station within reach among
those not yet passed (on a sorted list, the last element of the reachable
front segment), fail with the infeasibility error if there is none, else
charge there and continue beyond it.  The fuel argument bounds the number
of iterations; callers pass one more than the station count, which is
always sufficient since each stop consumes at least one station. -/
def greedyGo (D R : ℚ) : ℕ → ℚ → List ℚ → Except String (List ℚ)
  | 0, _, _ => .error "fuel exhausted"
  | fuel + 1, current, stations =>
      if D - current ≤ R then .ok []
      else
        let reachable := stations.takeWhile fun p => decide (p - current ≤ R)
        match reachable.getLast? with
        | none => .error "infeasible"
        | some far =>
            match greedyGo D R fuel far (stations.dropWhile fun p => decide (p - current ≤ R)) with
            | .error e => .error e
            | .ok tail => .ok (far :: tail)

/-- Modelled from the spec: `plan_stops_sorted(sorted_positions, D, R)`:
validate, return the empty plan when `D = 0`, otherwise run the greedy
sweep from the origin. -/
def plan_stops_sorted (sorted_positions : List ℚ) (D R : ℚ) :
    Except String (List ℚ) :=
  match _validate_inputs sorted_positions D R with
  | .error e => .error e
  | .ok () =>
      if D = 0 then .ok []
      else greedyGo D R (sorted_positions.length + 1) 0 sorted_positions

/-- Modelled from the spec: `plan_stops(positions, D, R, assume_sorted)`;
when `assume_sorted` is false the positions are sorted ascending before
delegating to the sorted core. -/
def plan_stops (positions : List ℚ) (D R : ℚ) (assume_sorted : Bool) :
    Except String (List ℚ) :=
  if assume_sorted then plan_stops_sorted positions D R
  else plan_stops_sorted (positions.mergeSort fun a b => decide (a ≤ b)) D R

/-! ## Validation -/

theorem validateLoop_ok_iff (D : ℚ) :
    ∀ (positions : List ℚ) (last : ℚ),
      validateLoop D positions last = .ok () ↔
        (last :: positions).Chain' (· < ·) ∧ ∀ p ∈ positions, 0 < p ∧ p < D := by
  intro positions
  induction positions with
  | nil =>
      intro last
      simp [validateLoop]
  | cons pos rest ih =>
      intro last
      unfold validateLoop
      by_cases h1 : pos ≤ 0 ∨ D ≤ pos
      · rw [if_pos h1]
        simp only [List.forall_mem_cons]
        constructor
        · intro h; cases h
        · rintro ⟨-, ⟨h2, h3⟩, -⟩
          rcases h1 with h1 | h1 <;> [exact absurd h2 (not_lt.mpr h1);
            exact absurd h3 (not_lt.mpr h1)]
      · rw [if_neg h1]
        push_neg at h1
        by_cases h2 : pos ≤ last
        · rw [if_pos h2]
          constructor
          · intro h; cases h
          · rintro ⟨hchain, -⟩
            rw [List.chain'_cons] at hchain
            exact absurd hchain.1 (not_lt.mpr h2)
        · rw [if_neg h2]
          push_neg at h2
          rw [ih pos]
          rw [List.chain'_cons, List.forall_mem_cons]
          constructor
          · rintro ⟨hchain, hall⟩
            exact ⟨⟨h2, hchain⟩, ⟨h1.1, h1.2⟩, hall⟩
          · rintro ⟨⟨-, hchain⟩, -, hall⟩
            exact ⟨hchain, hall⟩

theorem validate_ok_iff (positions : List ℚ) (D R : ℚ) :
    _validate_inputs positions D R = .ok () ↔ ValidGeometry positions D R := by
  unfold _validate_inputs ValidGeometry
  by_cases h1 : R ≤ 0
  · rw [if_pos h1]
    constructor
    · intro h; cases h
    · rintro ⟨hR, -⟩; exact absurd hR (not_lt.mpr h1)
  · rw [if_neg h1]
    push_neg at h1
    by_cases h2 : D < 0
    · rw [if_pos h2]
      constructor
      · intro h; cases h
      · rintro ⟨-, hD, -⟩; exact absurd hD (not_le.mpr h2)
    · rw [if_neg h2]
      push_neg at h2
      rw [validateLoop_ok_iff]
      constructor
      · rintro ⟨hchain, hall⟩
        rw [List.chain'_cons'] at hchain
        exact ⟨h1, h2, hchain.2, hall⟩
      · rintro ⟨-, -, hchain, hall⟩
        refine ⟨?_, hall⟩
        rw [List.chain'_cons']
        refine ⟨?_, hchain⟩
        intro y hy
        exact (hall y (List.mem_of_mem_head? hy)).1

/-- The condition of the InvalidInput error taxonomy, stated as in the
spec: non-positive range, negative destination, out-of-range station, or
stations not strictly increasing. -/
def InvalidCondition (positions : List ℚ) (D R : ℚ) : Prop :=
  R ≤ 0 ∨ D < 0 ∨ (∃ p ∈ positions, p ≤ 0 ∨ D ≤ p) ∨
    ¬ positions.Chain' (· < ·)

/-- A result that signals one of the four InvalidInput error messages. -/
def IsInvalidError {α : Type} (r : Except String α) : Prop :=
  r = .error "range must be positive" ∨
  r = .error "destination must be non-negative" ∨
  r = .error "station positions must lie strictly between 0 and D" ∨
  r = .error "station positions must be strictly increasing"

theorem invalidCondition_iff_not_validGeometry (positions : List ℚ) (D R : ℚ) :
    InvalidCondition positions D R ↔ ¬ ValidGeometry positions D R := by
  unfold InvalidCondition ValidGeometry
  constructor
  · rintro (h | h | ⟨p, hp, h⟩ | h) ⟨hR, hD, hchain, hall⟩
    · exact absurd hR (not_lt.mpr h)
    · exact absurd hD (not_le.mpr h)
    · rcases h with h | h
      · exact absurd (hall p hp).1 (not_lt.mpr h)
      · exact absurd (hall p hp).2 (not_lt.mpr h)
    · exact h hchain
  · intro h
    by_contra hcon
    push_neg at hcon
    obtain ⟨hR, hD, hout, hchain⟩ := hcon
    exact h ⟨hR, hD, hchain, hout⟩

/-- The validator signals an InvalidInput error exactly on invalid
geometries, and on a valid geometry it succeeds. -/
theorem validate_error_iff (positions : List ℚ) (D R : ℚ) :
    IsInvalidError (_validate_inputs positions D R) ↔
      ¬ ValidGeometry positions D R := by
  constructor
  · intro h hvalid
    rw [← validate_ok_iff] at hvalid
    rcases h with h | h | h | h <;> rw [hvalid] at h <;> cases h
  · intro h
    rcases hres : _validate_inputs positions D R with e | u
    · unfold _validate_inputs at hres
      by_cases h1 : R ≤ 0
      · rw [if_pos h1] at hres
        left
        rw [← hres]
      · rw [if_neg h1] at hres
        by_cases h2 : D < 0
        · rw [if_pos h2] at hres
          right; left
          rw [← hres]
        · rw [if_neg h2] at hres
          have : ∀ (ps : List ℚ) (last : ℚ) (e : String),
              validateLoop D ps last = .error e →
              e = "station positions must lie strictly between 0 and D" ∨
              e = "station positions must be strictly increasing" := by
            intro ps
            induction ps with
            | nil => intro last e he; cases he
            | cons pos rest ih =>
                intro last e he
                unfold validateLoop at he
                by_cases hb : pos ≤ 0 ∨ D ≤ pos
                · rw [if_pos hb] at he
                  left
                  cases he
                  rfl
                · rw [if_neg hb] at he
                  by_cases hm : pos ≤ last
                  · rw [if_pos hm] at he
                    right
                    cases he
                    rfl
                  · rw [if_neg hm] at he
                    exact ih pos e he
          rcases this positions 0 e hres with he | he <;> subst he
          · right; right; left; rfl
          · right; right; right; rfl
    · cases u
      rw [validate_ok_iff] at hres
      exact absurd hres h

/-- Any greedy run either succeeds, or fails with the infeasibility error,
or runs out of fuel. -/
theorem greedyGo_cases (D R : ℚ) :
    ∀ (fuel : ℕ) (current : ℚ) (stations : List ℚ),
      (∃ l, greedyGo D R fuel current stations = .ok l) ∨
      greedyGo D R fuel current stations = .error "infeasible" ∨
      greedyGo D R fuel current stations = .error "fuel exhausted" := by
  intro fuel
  induction fuel with
  | zero => intro current stations; right; right; rfl
  | succ fuel ih =>
      intro current stations
      unfold greedyGo
      by_cases hD : D - current ≤ R
      · rw [if_pos hD]; exact Or.inl ⟨[], rfl⟩
      · rw [if_neg hD]
        rcases hlast : (stations.takeWhile fun p => decide (p - current ≤ R)).getLast? with
          _ | far
        · right; left
          simp only [hlast]
        · rcases ih far (stations.dropWhile fun p => decide (p - current ≤ R)) with
            ⟨l, hl⟩ | hl | hl
          · left; exact ⟨far :: l, by simp only [hlast, hl]⟩
          · right; left; simp only [hlast, hl]
          · right; right; simp only [hlast, hl]

theorem isInvalidError_error {α : Type} (e : String) :
    IsInvalidError (Except.error e : Except String α) ↔
      e = "range must be positive" ∨ e = "destination must be non-negative" ∨
      e = "station positions must lie strictly between 0 and D" ∨
      e = "station positions must be strictly increasing" := by
  unfold IsInvalidError
  simp only [Except.error.injEq]

/-- C6: `min_stops_dp` and the greedy entry points raise an InvalidInput
error if and only if `R ≤ 0`, or `D < 0`, or some station position is
`≤ 0` or `≥ D`, or the station positions are not strictly increasing; on
inputs satisfying none of these conditions no InvalidInput error is
raised. -/
theorem C6_invalid_input (positions : List ℚ) (D R : ℚ) :
    (IsInvalidError (min_stops_dp positions D R) ↔ InvalidCondition positions D R) ∧
    (IsInvalidError (plan_stops_sorted positions D R) ↔ InvalidCondition positions D R) ∧
    (IsInvalidError (plan_stops positions D R true) ↔ InvalidCondition positions D R) := by
  have hps : plan_stops positions D R true = plan_stops_sorted positions D R := rfl
  rcases hv : _validate_inputs positions D R with e | u
  · have hnv : ¬ ValidGeometry positions D R := by
      rw [← validate_ok_iff]
      intro hok
      rw [hok] at hv
      cases hv
    have hinv : IsInvalidError (_validate_inputs positions D R) :=
      (validate_error_iff positions D R).mpr hnv
    rw [hv, isInvalidError_error] at hinv
    have hcond : InvalidCondition positions D R :=
      (invalidCondition_iff_not_validGeometry positions D R).mpr hnv
    have hdp : min_stops_dp positions D R = .error e := by
      unfold min_stops_dp
      rw [hv]
    have hgs : plan_stops_sorted positions D R = .error e := by
      unfold plan_stops_sorted
      rw [hv]
    rw [hps, hdp, hgs]
    exact ⟨⟨fun _ => hcond, fun _ => (isInvalidError_error e).mpr hinv⟩,
      ⟨fun _ => hcond, fun _ => (isInvalidError_error e).mpr hinv⟩,
      ⟨fun _ => hcond, fun _ => (isInvalidError_error e).mpr hinv⟩⟩
  · cases u
    have hvalid : ValidGeometry positions D R := (validate_ok_iff positions D R).mp hv
    have hncond : ¬ InvalidCondition positions D R := by
      rw [invalidCondition_iff_not_validGeometry]
      exact not_not_intro hvalid
    have hdp : ¬ IsInvalidError (min_stops_dp positions D R) := by
      unfold min_stops_dp
      rw [hv]
      by_cases hD : D = 0
      · rw [if_pos hD]
        rintro (h | h | h | h) <;> cases h
      · rw [if_neg hD]
        by_cases hle : (0 :: positions ++ [D]).length + 1 ≤
            (dpOuter (0 :: positions ++ [D]) R ((0 :: positions ++ [D]).length - 1)
              ((0 :: positions ++ [D]).length + 1)
              (List.range' 1 ((0 :: positions ++ [D]).length - 1))
              ((List.replicate (0 :: positions ++ [D]).length
                ((0 :: positions ++ [D]).length + 1)).set 0 0,
               List.replicate (0 :: positions ++ [D]).length (-1))).1.getD
              ((0 :: positions ++ [D]).length - 1) ((0 :: positions ++ [D]).length + 1)
        · rw [if_pos hle]
          rintro (h | h | h | h) <;> simp [IsInvalidError] at h
        · rw [if_neg hle]
          rintro (h | h | h | h) <;> cases h
    have hgs : ¬ IsInvalidError (plan_stops_sorted positions D R) := by
      unfold plan_stops_sorted
      rw [hv]
      by_cases hD : D = 0
      · rw [if_pos hD]
        rintro (h | h | h | h) <;> cases h
      · rw [if_neg hD]
        rcases greedyGo_cases D R (positions.length + 1) 0 positions with ⟨l, hl⟩ | hl | hl <;>
          rw [hl] <;> rintro (h | h | h | h) <;> simp [IsInvalidError] at h
    rw [hps]
    exact ⟨⟨fun h => absurd h hdp, fun h => absurd h hncond⟩,
      ⟨fun h => absurd h hgs, fun h => absurd h hncond⟩,
      ⟨fun h => absurd h hgs, fun h => absurd h hncond⟩⟩

/-- C10: for every `R > 0`, `min_stops_dp` with `D = 0` returns `(0, [])`
on the empty station list and raises the out-of-range station error on
every non-empty station list (no real position can lie strictly between
`0` and `0`). -/
theorem C10_zero_destination (R : ℚ) (hR : 0 < R) :
    min_stops_dp [] 0 R = .ok (0, []) ∧
    ∀ (p : ℚ) (ps : List ℚ),
      min_stops_dp (p :: ps) 0 R =
        .error "station positions must lie strictly between 0 and D" := by
  constructor
  · unfold min_stops_dp _validate_inputs validateLoop
    rw [if_neg (not_le.mpr hR), if_neg (by norm_num)]
    rfl
  · intro p ps
    unfold min_stops_dp _validate_inputs validateLoop
    rw [if_neg (not_le.mpr hR), if_neg (by norm_num)]
    rw [if_pos ?_]
    rcases le_total p 0 with h | h
    · exact Or.inl h
    · exact Or.inr h

theorem C10_zero_destination_witness :
    (0 : ℚ) < 1 ∧
    (min_stops_dp [] 0 1 = .ok (0, []) ∧
    ∀ (p : ℚ) (ps : List ℚ),
      min_stops_dp (p :: ps) 0 1 =
        .error "station positions must lie strictly between 0 and D") :=
  ⟨by norm_num, C10_zero_destination 1 (by norm_num)⟩

/-! ## DP table analysis -/

theorem dpOuter_append (w : List ℚ) (R : ℚ) (d u : ℕ) (js js' : List ℕ)
    (st : List ℕ × List Int) :
    dpOuter w R d u (js ++ js') st = dpOuter w R d u js' (dpOuter w R d u js st) := by
  induction js generalizing st with
  | nil => rfl
  | cons j js ih =>
      simp only [List.cons_append, dpOuter]
      exact ih _

/-- The DP tables after the outer loop has processed `j = 1, …, k`. -/
def dpPartial (w : List ℚ) (R : ℚ) (k : ℕ) : List ℕ × List Int :=
  dpOuter w R (w.length - 1) (w.length + 1) (List.range' 1 k)
    ((List.replicate w.length (w.length + 1)).set 0 0, List.replicate w.length (-1))

theorem dpPartial_succ (w : List ℚ) (R : ℚ) (k : ℕ) :
    dpPartial w R (k + 1) =
      ((dpPartial w R k).1.set (k + 1)
        (dpInnerGo w R (dpPartial w R k).1 (w.length - 1) (w.length + 1) (k + 1)
          (List.range (k + 1)) (w.length + 1, -1)).1,
       (dpPartial w R k).2.set (k + 1)
        (dpInnerGo w R (dpPartial w R k).1 (w.length - 1) (w.length + 1) (k + 1)
          (List.range (k + 1)) (w.length + 1, -1)).2) := by
  unfold dpPartial
  rw [List.range'_1_concat, dpOuter_append]
  have h1 : 1 + k = k + 1 := Nat.add_comm 1 k
  rw [h1]
  rfl

theorem dpPartial_length (w : List ℚ) (R : ℚ) :
    ∀ k, (dpPartial w R k).1.length = w.length ∧
      (dpPartial w R k).2.length = w.length := by
  intro k
  induction k with
  | zero => simp [dpPartial, dpOuter]
  | succ k ih =>
      rw [dpPartial_succ]
      simp [ih.1, ih.2]

theorem dpPartial_entry_zero (w : List ℚ) (R : ℚ) (hw : 0 < w.length) :
    ∀ k (d : ℕ), (dpPartial w R k).1.getD 0 d = 0 := by
  intro k
  induction k with
  | zero =>
      intro d
      simp only [dpPartial, dpOuter]
      rw [List.getD_eq_getElem?_getD, List.getElem?_set_self (by simpa using hw)]
      rfl
  | succ k ih =>
      intro d
      rw [dpPartial_succ, List.getD_eq_getElem?_getD,
        List.getElem?_set_ne (by omega), ← List.getD_eq_getElem?_getD]
      exact ih d

theorem dpPartial_untouched (w : List ℚ) (R : ℚ) :
    ∀ k j (d : ℕ) (d' : Int), k < j → j < w.length →
      (dpPartial w R k).1.getD j d = w.length + 1 ∧
      (dpPartial w R k).2.getD j d' = -1 := by
  intro k
  induction k with
  | zero =>
      intro j d d' hkj hjn
      simp only [dpPartial, dpOuter]
      constructor
      · rw [List.getD_eq_getElem?_getD, List.getElem?_set_ne (by omega),
          List.getElem?_replicate_of_lt hjn]
        rfl
      · rw [List.getD_eq_getElem?_getD, List.getElem?_replicate_of_lt hjn]
        rfl
  | succ k ih =>
      intro j d d' hkj hjn
      rw [dpPartial_succ]
      constructor
      · rw [List.getD_eq_getElem?_getD, List.getElem?_set_ne (by omega),
          ← List.getD_eq_getElem?_getD]
        exact (ih j d d' (by omega) hjn).1
      · rw [List.getD_eq_getElem?_getD, List.getElem?_set_ne (by omega),
          ← List.getD_eq_getElem?_getD]
        exact (ih j d d' (by omega) hjn).2

theorem dpPartial_stable (w : List ℚ) (R : ℚ) :
    ∀ k k' j (d : ℕ) (d' : Int), k ≤ k' → j ≤ k →
      (dpPartial w R k').1.getD j d = (dpPartial w R k).1.getD j d ∧
      (dpPartial w R k').2.getD j d' = (dpPartial w R k).2.getD j d' := by
  intro k k'
  induction k' with
  | zero =>
      intro j d d' hk hj
      have : k = 0 := by omega
      subst this
      exact ⟨rfl, rfl⟩
  | succ k' ih =>
      intro j d d' hk hj
      rcases Nat.lt_or_ge k (k' + 1) with hlt | hge
      · have hk' : k ≤ k' := by omega
        rw [dpPartial_succ]
        constructor
        · rw [List.getD_eq_getElem?_getD, List.getElem?_set_ne (by omega),
            ← List.getD_eq_getElem?_getD]
          exact (ih j d d' hk' hj).1
        · rw [List.getD_eq_getElem?_getD, List.getElem?_set_ne (by omega),
            ← List.getD_eq_getElem?_getD]
          exact (ih j d d' hk' hj).2
      · have : k = k' + 1 := by omega
        subst this
        exact ⟨rfl, rfl⟩

theorem dpInnerGo_congr (w : List ℚ) (R : ℚ) (S S' : List ℕ) (d u j : ℕ) :
    ∀ (is : List ℕ) (acc : ℕ × Int),
      (∀ i ∈ is, S.getD i u = S'.getD i u) →
      dpInnerGo w R S d u j is acc = dpInnerGo w R S' d u j is acc := by
  intro is
  induction is with
  | nil => intro acc _; rfl
  | cons i is ih =>
      intro acc h
      simp only [dpInnerGo]
      rw [h i (List.mem_cons_self i is)]
      exact ih _ fun i' hi' => h i' (List.mem_cons_of_mem i hi')

/-- Entry `j` of the finished table is computed by the inner loop reading
the finished table itself (entries below `j` are final from the moment they
are written). -/
theorem dpPartial_entry (w : List ℚ) (R : ℚ) :
    ∀ k j, 1 ≤ j → j ≤ k → j < w.length →
      ((dpPartial w R k).1.getD j (w.length + 1),
       (dpPartial w R k).2.getD j (-1)) =
        dpInnerGo w R (dpPartial w R k).1 (w.length - 1) (w.length + 1) j
          (List.range j) (w.length + 1, -1) := by
  intro k
  induction k with
  | zero => intro j h1 h2; omega
  | succ k ih =>
      intro j h1 h2 hjn
      rcases Nat.lt_or_ge j (k + 1) with hlt | hge
      · have hjk : j ≤ k := by omega
        have hstable := dpPartial_stable w R k (k + 1) j (w.length + 1) (-1)
          (by omega) hjk
        rw [hstable.1, hstable.2, ih j h1 hjk hjn]
        apply dpInnerGo_congr
        intro i hi
        have hik : i < j := List.mem_range.mp hi
        exact ((dpPartial_stable w R k (k + 1) i (w.length + 1) (-1) (by omega)
          (by omega)).1).symm
      · have hjeq : j = k + 1 := by omega
        subst hjeq
        have hlen := (dpPartial_length w R k).1
        have hlen2 := (dpPartial_length w R k).2
        rw [dpPartial_succ]
        set X := dpInnerGo w R (dpPartial w R k).1 (w.length - 1) (w.length + 1) (k + 1)
          (List.range (k + 1)) (w.length + 1, -1) with hX
        have hA : ((dpPartial w R k).1.set (k + 1) X.1).getD (k + 1) (w.length + 1) = X.1 := by
          rw [List.getD_eq_getElem?_getD, List.getElem?_set_self (by omega), Option.getD_some]
        have hB : ((dpPartial w R k).2.set (k + 1) X.2).getD (k + 1) (-1) = X.2 := by
          rw [List.getD_eq_getElem?_getD, List.getElem?_set_self (by omega), Option.getD_some]
        have hC : dpInnerGo w R ((dpPartial w R k).1.set (k + 1) X.1) (w.length - 1)
            (w.length + 1) (k + 1) (List.range (k + 1)) (w.length + 1, -1) = X := by
          rw [hX]
          apply dpInnerGo_congr
          intro i hi
          have hik : i < k + 1 := List.mem_range.mp hi
          rw [List.getD_eq_getElem?_getD, List.getElem?_set_ne (by omega),
            ← List.getD_eq_getElem?_getD]
        show (((dpPartial w R k).1.set (k + 1) X.1).getD (k + 1) (w.length + 1),
          ((dpPartial w R k).2.set (k + 1) X.2).getD (k + 1) (-1)) = _
        rw [hA, hB, hC]

/-- Cost of arriving at waypoint `j`: one stop, except at the destination
(and the origin, which is never a step target). -/
def stepCost (destIdx j : ℕ) : ℕ := if j = destIdx then 0 else 1

theorem dpInnerGo_spec (w : List ℚ) (R : ℚ) (S : List ℕ) (d u j : ℕ) :
    ∀ (is : List ℕ) (acc : ℕ × Int),
      (dpInnerGo w R S d u j is acc).1 ≤ acc.1 ∧
      (∀ i ∈ is, ¬ R < w.getD j 0 - w.getD i 0 →
        (dpInnerGo w R S d u j is acc).1 ≤ S.getD i u + stepCost d j) ∧
      (dpInnerGo w R S d u j is acc = acc ∨
        ∃ i ∈ is, ¬ R < w.getD j 0 - w.getD i 0 ∧
          (dpInnerGo w R S d u j is acc).1 = S.getD i u + stepCost d j ∧
          (dpInnerGo w R S d u j is acc).2 = (i : Int)) := by
  intro is
  induction is with
  | nil =>
      intro acc
      exact ⟨le_refl _, by simp, Or.inl rfl⟩
  | cons i is ih =>
      intro acc
      by_cases hskip : R < w.getD j 0 - w.getD i 0
      · have hstep : dpInnerGo w R S d u j (i :: is) acc =
            dpInnerGo w R S d u j is acc := by
          simp only [dpInnerGo, if_pos hskip]
        rw [hstep]
        obtain ⟨ha, hb, hc⟩ := ih acc
        refine ⟨ha, ?_, ?_⟩
        · intro i' hi' hreach
          rcases List.mem_cons.mp hi' with he | hm
          · subst he; exact absurd hskip hreach
          · exact hb i' hm hreach
        · rcases hc with he | ⟨i', hi', h1, h2, h3⟩
          · exact Or.inl he
          · exact Or.inr ⟨i', List.mem_cons_of_mem i hi', h1, h2, h3⟩
      · by_cases hprop : S.getD i u + (if j = d then 0 else 1) < acc.1
        · have hstep : dpInnerGo w R S d u j (i :: is) acc =
              dpInnerGo w R S d u j is (S.getD i u + (if j = d then 0 else 1), (i : Int)) := by
            simp only [dpInnerGo, if_neg hskip, if_pos hprop]
          rw [hstep]
          obtain ⟨ha, hb, hc⟩ := ih (S.getD i u + (if j = d then 0 else 1), (i : Int))
          have hcost : (if j = d then 0 else 1) = stepCost d j := rfl
          refine ⟨le_of_lt (lt_of_le_of_lt ha hprop), ?_, ?_⟩
          · intro i' hi' hreach
            rcases List.mem_cons.mp hi' with he | hm
            · subst he
              rw [← hcost]
              exact ha
            · exact hb i' hm hreach
          · rcases hc with he | ⟨i', hi', h1, h2, h3⟩
            · refine Or.inr ⟨i, List.mem_cons_self i is, hskip, ?_, ?_⟩
              · rw [he, ← hcost]
              · rw [he]
            · exact Or.inr ⟨i', List.mem_cons_of_mem i hi', h1, h2, h3⟩
        · have hstep : dpInnerGo w R S d u j (i :: is) acc =
              dpInnerGo w R S d u j is acc := by
            simp only [dpInnerGo, if_neg hskip, if_neg hprop]
          rw [hstep]
          obtain ⟨ha, hb, hc⟩ := ih acc
          push_neg at hprop
          refine ⟨ha, ?_, ?_⟩
          · intro i' hi' hreach
            rcases List.mem_cons.mp hi' with he | hm
            · subst he
              exact ha.trans hprop
            · exact hb i' hm hreach
          · rcases hc with he | ⟨i', hi', h1, h2, h3⟩
            · exact Or.inl he
            · exact Or.inr ⟨i', List.mem_cons_of_mem i hi', h1, h2, h3⟩

/-! ## Waypoint reachability semantics -/

/-- Reachability in the augmented waypoint graph: `ReachN w R destIdx j k`
holds when waypoint `j` is reachable from the origin using hops of length
at most `R`, where `k` counts every visited waypoint except the origin and
the destination. -/
inductive ReachN (w : List ℚ) (R : ℚ) (destIdx : ℕ) : ℕ → ℕ → Prop where
  | zero : ReachN w R destIdx 0 0
  | step {i j k : ℕ} : ReachN w R destIdx i k → i < j → j < w.length →
      w.getD j 0 - w.getD i 0 ≤ R → ReachN w R destIdx j (k + stepCost destIdx j)

/-- The finished `stops_needed` table. -/
def dpS (w : List ℚ) (R : ℚ) : List ℕ := (dpPartial w R (w.length - 1)).1

/-- The finished `predecessor` table. -/
def dpP (w : List ℚ) (R : ℚ) : List Int := (dpPartial w R (w.length - 1)).2

theorem dpS_length (w : List ℚ) (R : ℚ) : (dpS w R).length = w.length :=
  (dpPartial_length w R (w.length - 1)).1

theorem dpS_zero (w : List ℚ) (R : ℚ) (hw : 0 < w.length) (d : ℕ) :
    (dpS w R).getD 0 d = 0 :=
  dpPartial_entry_zero w R hw _ d

theorem dp_recurrence (w : List ℚ) (R : ℚ) (j : ℕ) (h1 : 1 ≤ j)
    (h2 : j ≤ w.length - 1) (hn : 2 ≤ w.length) :
    ((dpS w R).getD j (w.length + 1), (dpP w R).getD j (-1)) =
      dpInnerGo w R (dpS w R) (w.length - 1) (w.length + 1) j
        (List.range j) (w.length + 1, -1) :=
  dpPartial_entry w R (w.length - 1) j h1 h2 (by omega)

/-- Predecessor facts at a reachable waypoint: there is a predecessor
index below `j`, within hop range, realising the table value. -/
theorem dp_pred (w : List ℚ) (R : ℚ) (j : ℕ) (h1 : 1 ≤ j)
    (h2 : j ≤ w.length - 1) (hn : 2 ≤ w.length)
    (hreach : (dpS w R).getD j (w.length + 1) < w.length + 1) :
    ∃ i, i < j ∧ ¬ R < w.getD j 0 - w.getD i 0 ∧
      (dpS w R).getD j (w.length + 1) =
        (dpS w R).getD i (w.length + 1) + stepCost (w.length - 1) j ∧
      (dpP w R).getD j (-1) = (i : Int) ∧
      (dpS w R).getD i (w.length + 1) < w.length + 1 := by
  have hrec := dp_recurrence w R j h1 h2 hn
  obtain ⟨-, -, hc⟩ := dpInnerGo_spec w R (dpS w R) (w.length - 1) (w.length + 1) j
    (List.range j) (w.length + 1, -1)
  rw [← hrec] at hc
  rcases hc with he | ⟨i, hi, hhop, hval, hpred⟩
  · have : (dpS w R).getD j (w.length + 1) = w.length + 1 := congrArg Prod.fst he
    omega
  · refine ⟨i, List.mem_range.mp hi, hhop, hval, hpred, ?_⟩
    have : stepCost (w.length - 1) j ≤ 1 := by
      unfold stepCost
      split <;> omega
    omega

/-- Minimality of a table entry over all in-range predecessors. -/
theorem dp_min (w : List ℚ) (R : ℚ) (j i : ℕ) (h1 : 1 ≤ j)
    (h2 : j ≤ w.length - 1) (hn : 2 ≤ w.length) (hij : i < j)
    (hhop : ¬ R < w.getD j 0 - w.getD i 0) :
    (dpS w R).getD j (w.length + 1) ≤
      (dpS w R).getD i (w.length + 1) + stepCost (w.length - 1) j := by
  have hrec := dp_recurrence w R j h1 h2 hn
  obtain ⟨-, hb, -⟩ := dpInnerGo_spec w R (dpS w R) (w.length - 1) (w.length + 1) j
    (List.range j) (w.length + 1, -1)
  have := hb i (List.mem_range.mpr hij) hhop
  rw [← hrec] at this
  exact this

/-- Soundness: a finite table entry is witnessed by an actual path. -/
theorem dp_sound (w : List ℚ) (R : ℚ) (hn : 2 ≤ w.length) :
    ∀ j, j ≤ w.length - 1 →
      (dpS w R).getD j (w.length + 1) < w.length + 1 →
      ReachN w R (w.length - 1) j ((dpS w R).getD j (w.length + 1)) := by
  intro j
  induction j using Nat.strong_induction_on with
  | _ j ih =>
      intro hj hreach
      rcases Nat.eq_zero_or_pos j with hj0 | hj1
      · subst hj0
        rw [dpS_zero w R (by omega)]
        exact ReachN.zero
      · obtain ⟨i, hij, hhop, hval, -, hless⟩ := dp_pred w R j hj1 hj hn hreach
        have hrei := ih i hij (by omega) hless
        rw [hval]
        exact ReachN.step hrei hij (by omega) (not_lt.mp hhop)

/-- Optimality: the table entry is a lower bound on the cost of every
path. -/
theorem dp_opt (w : List ℚ) (R : ℚ) (hn : 2 ≤ w.length) :
    ∀ j k, ReachN w R (w.length - 1) j k → j ≤ w.length - 1 →
      (dpS w R).getD j (w.length + 1) ≤ k := by
  intro j k hreach
  induction hreach with
  | zero =>
      intro _
      rw [dpS_zero w R (by omega)]
  | step hprev hij hjn hhop ih =>
      intro hj
      rename_i i j k
      have hile : i ≤ w.length - 1 := by omega
      have := dp_min w R j i (by omega) (by omega) hn hij (not_lt.mpr hhop)
      exact this.trans (Nat.add_le_add_right (ih hile) _)

/-- Selecting entries of `l` at a strictly increasing list of in-range
indices yields a sublist of `l`. -/
theorem sublist_of_map_getD (d : ℚ) :
    ∀ (l : List ℚ) (idxs : List ℕ), idxs.Pairwise (· < ·) →
      (∀ i ∈ idxs, i < l.length) →
      (idxs.map fun i => l.getD i d).Sublist l := by
  intro l
  induction l with
  | nil =>
      intro idxs _ hbound
      cases idxs with
      | nil => simp
      | cons i t =>
          have := hbound i (List.mem_cons_self i t)
          simp at this
  | cons a t ih =>
      intro idxs hpw hbound
      cases idxs with
      | nil => simp
      | cons i rest =>
          have hpwrest : rest.Pairwise (· < ·) := (List.pairwise_cons.mp hpw).2
          have hifirst : ∀ x ∈ rest, i < x := (List.pairwise_cons.mp hpw).1
          have hpw' : (rest.map (· - 1)).Pairwise (· < ·) := by
            rw [List.pairwise_map]
            refine hpwrest.imp_of_mem ?_
            intro a' b' ha' hb' hab
            have h1 : i < a' := hifirst a' ha'
            omega
          have hbound' : ∀ x ∈ rest.map (· - 1), x < t.length := by
            intro x hx
            rw [List.mem_map] at hx
            obtain ⟨y, hy, he⟩ := hx
            have h1 := hbound y (List.mem_cons_of_mem i hy)
            have h2 : i < y := hifirst y hy
            simp only [List.length_cons] at h1
            omega
          by_cases hi0 : i = 0
          · subst hi0
            have hmap : ((0 :: rest).map fun i => (a :: t).getD i d) =
                a :: ((rest.map (· - 1)).map fun i => t.getD i d) := by
              simp only [List.map_cons, List.map_map]
              congr 1
              apply List.map_congr_left
              intro x hx
              have hx1 : 1 ≤ x := by
                have := hifirst x hx
                omega
              obtain ⟨y, rfl⟩ : ∃ y, x = y + 1 := ⟨x - 1, by omega⟩
              simp [Function.comp]
            rw [hmap]
            exact (ih (rest.map (· - 1)) hpw' hbound').cons₂ a
          · have hall1 : ∀ x ∈ i :: rest, 1 ≤ x := by
              intro x hx
              rcases List.mem_cons.mp hx with he | hm
              · omega
              · have := hifirst x hm
                omega
            have hmap : ((i :: rest).map fun i => (a :: t).getD i d) =
                (((i :: rest).map (· - 1)).map fun i => t.getD i d) := by
              simp only [List.map_map]
              apply List.map_congr_left
              intro x hx
              have hx1 : 1 ≤ x := hall1 x hx
              obtain ⟨y, rfl⟩ : ∃ y, x = y + 1 := ⟨x - 1, by omega⟩
              simp [Function.comp]
            have hpw'' : ((i :: rest).map (· - 1)).Pairwise (· < ·) := by
              rw [List.pairwise_map]
              refine hpw.imp_of_mem ?_
              intro a' b' ha' hb' hab
              have h1 := hall1 a' ha'
              have h2 := hall1 b' hb'
              omega
            have hbound'' : ∀ x ∈ (i :: rest).map (· - 1), x < t.length := by
              intro x hx
              rw [List.mem_map] at hx
              obtain ⟨y, hy, he⟩ := hx
              have h1 := hbound y hy
              have h2 : 1 ≤ y := hall1 y hy
              simp only [List.length_cons] at h1
              omega
            rw [hmap]
            exact (ih _ hpw'' hbound'').cons a

theorem backtrack_succ (w : List ℚ) (P : List Int) (d fuel cursor : ℕ)
    (acc : List ℚ) :
    backtrack w P d (fuel + 1) cursor acc =
      if cursor = 0 then acc
      else if P.getD cursor (-1) = -1 then acc
      else backtrack w P d fuel (P.getD cursor (-1)).toNat
        (if cursor ≠ d then acc ++ [w.getD cursor 0] else acc) := rfl

/-- Correctness of the predecessor walk below the destination: starting at
a reachable `cursor` strictly below the destination, it appends (in
backward order) a strictly increasing sequence of intermediate waypoint
indices ending at `cursor`, one per counted stop, whose values form a
feasible hop chain from the origin. -/
theorem backtrack_chain (w : List ℚ) (R : ℚ) (hn : 2 ≤ w.length)
    (hw0 : w.getD 0 0 = 0) :
    ∀ cursor, cursor < w.length - 1 →
      (dpS w R).getD cursor (w.length + 1) < w.length + 1 →
      ∀ fuel acc, cursor ≤ fuel →
        ∃ idxs : List ℕ,
          idxs.Pairwise (· < ·) ∧
          (∀ i ∈ idxs, 1 ≤ i ∧ i ≤ cursor) ∧
          backtrack w (dpP w R) (w.length - 1) fuel cursor acc =
            acc ++ ((idxs.map fun i => w.getD i 0).reverse) ∧
          idxs.length = (dpS w R).getD cursor (w.length + 1) ∧
          (0 :: idxs.map fun i => w.getD i 0).Chain' (fun a b => b - a ≤ R) ∧
          (idxs.getLast? = some cursor ∨ (idxs = [] ∧ cursor = 0)) := by
  intro cursor
  induction cursor using Nat.strong_induction_on with
  | _ cursor ih =>
      intro hcd hreach fuel acc hfuel
      rcases Nat.eq_zero_or_pos cursor with hc0 | hc1
      · subst hc0
        refine ⟨[], by simp, by simp, ?_, ?_, by simp, Or.inr ⟨rfl, rfl⟩⟩
        · rcases fuel with _ | f <;> simp [backtrack]
        · rw [dpS_zero w R (by omega)]
          rfl
      · obtain ⟨i, hij, hhop, hval, hpred, hless⟩ :=
          dp_pred w R cursor hc1 (by omega) hn hreach
        have hcost : stepCost (w.length - 1) cursor = 1 := by
          unfold stepCost
          rw [if_neg (by omega)]
        rcases fuel with _ | f
        · omega
        · have hne1 : ((i : Int)) ≠ -1 := by omega
          have hunfold : backtrack w (dpP w R) (w.length - 1) (f + 1) cursor acc =
              backtrack w (dpP w R) (w.length - 1) f i
                (acc ++ [w.getD cursor 0]) := by
            rw [backtrack_succ, if_neg (by omega : ¬ cursor = 0), hpred,
              if_neg hne1, if_pos (by omega : cursor ≠ w.length - 1)]
            simp
          obtain ⟨idxs, hpw, hbounds, heq, hlen, hchain, hlast⟩ :=
            ih i hij (by omega) hless f (acc ++ [w.getD cursor 0]) (by omega)
          refine ⟨idxs ++ [cursor], ?_, ?_, ?_, ?_, ?_, ?_⟩
          · rw [List.pairwise_append]
            refine ⟨hpw, by simp, ?_⟩
            intro x hx y hy
            rw [List.mem_singleton] at hy
            subst hy
            have := hbounds x hx
            omega
          · intro x hx
            rcases List.mem_append.mp hx with hm | hm
            · have := hbounds x hm
              omega
            · rw [List.mem_singleton] at hm
              omega
          · rw [hunfold, heq, List.map_append, List.reverse_append]
            simp
          · rw [List.length_append, hlen, hval, hcost]
            simp
          · rw [List.map_append]
            show ((0 :: idxs.map fun i => w.getD i 0) ++ [w.getD cursor 0]).Chain' _
            rw [List.chain'_append]
            refine ⟨hchain, by simp, ?_⟩
            intro x hx y hy
            simp only [List.head?_cons, Option.mem_def, Option.some.injEq] at hy
            subst hy
            have hxval : x = w.getD i 0 := by
              rcases hlast with hsome | ⟨hnil, hi0⟩
              · obtain ⟨front, hfront⟩ := List.getLast?_eq_some_iff.mp hsome
                rw [hfront, List.map_append] at hx
                have hshape : (0 :: ((front.map fun i => w.getD i 0) ++
                    ([i].map fun i => w.getD i 0))) =
                    (0 :: front.map fun i => w.getD i 0) ++ [w.getD i 0] := by
                  simp
                rw [hshape, List.getLast?_concat, Option.mem_def,
                  Option.some.injEq] at hx
                exact hx.symm
              · subst hnil
                subst hi0
                simp only [List.map_nil, List.getLast?_singleton, Option.mem_def,
                  Option.some.injEq] at hx
                rw [← hx, hw0]
            rw [hxval]
            exact not_lt.mp hhop
          · rw [List.getLast?_concat]
            exact Or.inl rfl

/-- Correctness of the full reconstruction from the destination: the
reversed result is a strictly increasing selection of intermediate
waypoints realising the destination's stop count, forming a feasible hop
chain from origin to destination. -/
theorem backtrack_dest (w : List ℚ) (R : ℚ) (hn : 2 ≤ w.length)
    (hw0 : w.getD 0 0 = 0)
    (hreach : (dpS w R).getD (w.length - 1) (w.length + 1) < w.length + 1) :
    ∃ idxs : List ℕ,
      idxs.Pairwise (· < ·) ∧
      (∀ i ∈ idxs, 1 ≤ i ∧ i ≤ w.length - 2) ∧
      (backtrack w (dpP w R) (w.length - 1) w.length (w.length - 1) []).reverse =
        idxs.map (fun i => w.getD i 0) ∧
      idxs.length = (dpS w R).getD (w.length - 1) (w.length + 1) ∧
      ((0 :: idxs.map fun i => w.getD i 0) ++
        [w.getD (w.length - 1) 0]).Chain' (fun a b => b - a ≤ R) := by
  obtain ⟨i, hij, hhop, hval, hpred, hless⟩ :=
    dp_pred w R (w.length - 1) (by omega) (le_refl _) hn hreach
  have hcost : stepCost (w.length - 1) (w.length - 1) = 0 := by
    unfold stepCost
    rw [if_pos rfl]
  have hne1 : ((i : Int)) ≠ -1 := by omega
  obtain ⟨m, hm⟩ : ∃ m, w.length = m + 1 := ⟨w.length - 1, by omega⟩
  have hunfold : backtrack w (dpP w R) (w.length - 1) w.length (w.length - 1) [] =
      backtrack w (dpP w R) (w.length - 1) m i [] := by
    rw [hm]
    rw [backtrack_succ, if_neg (by omega : ¬ m + 1 - 1 = 0)]
    rw [show m + 1 - 1 = w.length - 1 by omega, hpred, if_neg hne1,
      if_neg (by simp : ¬ w.length - 1 ≠ w.length - 1)]
    simp
  obtain ⟨idxs, hpw, hbounds, heq, hlen, hchain, hlast⟩ :=
    backtrack_chain w R hn hw0 i (by omega) hless m [] (by omega)
  refine ⟨idxs, hpw, ?_, ?_, ?_, ?_⟩
  · intro x hx
    have := hbounds x hx
    omega
  · rw [hunfold, heq, List.nil_append, List.reverse_reverse]
  · rw [hlen, hval, hcost]
    omega
  · rw [List.chain'_append]
    refine ⟨hchain, by simp, ?_⟩
    intro x hx y hy
    simp only [List.head?_cons, Option.mem_def, Option.some.injEq] at hy
    subst hy
    have hxval : x = w.getD i 0 := by
      rcases hlast with hsome | ⟨hnil, hi0⟩
      · obtain ⟨front, hfront⟩ := List.getLast?_eq_some_iff.mp hsome
        rw [hfront, List.map_append] at hx
        have hshape : (0 :: ((front.map fun i => w.getD i 0) ++
            ([i].map fun i => w.getD i 0))) =
            (0 :: front.map fun i => w.getD i 0) ++ [w.getD i 0] := by
          simp
        rw [hshape, List.getLast?_concat, Option.mem_def,
          Option.some.injEq] at hx
        exact hx.symm
      · subst hnil
        subst hi0
        simp only [List.map_nil, List.getLast?_singleton, Option.mem_def,
          Option.some.injEq] at hx
        rw [← hx, hw0]
    rw [hxval]
    exact not_lt.mp hhop

/-! ## The augmented waypoint list -/

theorem aug_length (positions : List ℚ) (D : ℚ) :
    (0 :: positions ++ [D]).length = positions.length + 2 := by
  simp

theorem aug_getD_zero (positions : List ℚ) (D : ℚ) :
    (0 :: positions ++ [D]).getD 0 0 = 0 := rfl

theorem aug_getD_last (positions : List ℚ) (D : ℚ) :
    (0 :: positions ++ [D]).getD (positions.length + 1) 0 = D := by
  rw [List.getD_eq_getElem?_getD]
  rw [show ((0 : ℚ) :: positions ++ [D]) = ((0 :: positions) ++ [D]) from rfl]
  rw [List.getElem?_append_right (by simp)]
  simp

theorem aug_getD_mid (positions : List ℚ) (D : ℚ) (i : ℕ)
    (hi : i < positions.length) :
    (0 :: positions ++ [D]).getD (i + 1) 0 = positions.getD i 0 := by
  rw [List.getD_eq_getElem?_getD, List.getD_eq_getElem?_getD]
  rw [show ((0 : ℚ) :: positions ++ [D]) = (0 :: (positions ++ [D])) from rfl]
  rw [List.getElem?_cons_succ, List.getElem?_append_left hi]

theorem aug_pairwise (positions : List ℚ) (D R : ℚ)
    (h : ValidGeometry positions D R) (hD : 0 < D) :
    (0 :: positions ++ [D]).Pairwise (· < ·) := by
  obtain ⟨-, -, hchain, hbounds⟩ := h
  have hpw : positions.Pairwise (· < ·) := List.chain'_iff_pairwise.mp hchain
  rw [show ((0 : ℚ) :: positions ++ [D]) = (0 :: (positions ++ [D])) from rfl]
  rw [List.pairwise_cons]
  constructor
  · intro x hx
    rcases List.mem_append.mp hx with hm | hm
    · exact (hbounds x hm).1
    · rw [List.mem_singleton] at hm
      rw [hm]
      exact hD
  · rw [List.pairwise_append]
    refine ⟨hpw, by simp, ?_⟩
    intro x hx y hy
    rw [List.mem_singleton] at hy
    rw [hy]
    exact (hbounds x hx).2

/-- Walking a feasible plan forward through the waypoint graph: from a
waypoint `c` reached with `k` stops, a feasible remaining plan of `m`
stops yields the destination with `k + m` stops. -/
theorem plan_walk (positions : List ℚ) (D R : ℚ)
    (h : ValidGeometry positions D R) (hD : 0 < D) :
    ∀ (plan : List ℚ) (c k : ℕ), c ≤ positions.length →
      ReachN (0 :: positions ++ [D]) R (positions.length + 1) c k →
      plan.Sublist positions →
      (∀ q ∈ plan, (0 :: positions ++ [D]).getD c 0 < q) →
      ((0 :: positions ++ [D]).getD c 0 :: plan ++ [D]).Chain'
        (fun a b => b - a ≤ R) →
      ReachN (0 :: positions ++ [D]) R (positions.length + 1)
        (positions.length + 1) (k + plan.length) := by
  intro plan
  induction plan with
  | nil =>
      intro c k hc hreach hsub hgt hchain
      have hhop : D - (0 :: positions ++ [D]).getD c 0 ≤ R := by
        have hchain2 : List.Chain' (fun a b => b - a ≤ R)
            [(0 :: positions ++ [D]).getD c 0, D] := hchain
        exact (List.chain'_cons.mp hchain2).1
      have hstep := ReachN.step hreach
        (show c < positions.length + 1 by omega)
        (show positions.length + 1 < (0 :: positions ++ [D]).length by
          rw [aug_length]; omega)
        (by rw [aug_getD_last]; exact hhop)
      have hcost : stepCost (positions.length + 1) (positions.length + 1) = 0 := by
        unfold stepCost
        rw [if_pos rfl]
      rw [hcost] at hstep
      simpa using hstep
  | cons q rest ih =>
      intro c k hc hreach hsub hgt hchain
      have hqmem : q ∈ positions := hsub.subset (List.mem_cons_self q rest)
      obtain ⟨iq, hiq, hq⟩ := List.getElem_of_mem hqmem
      have hqd : (0 :: positions ++ [D]).getD (iq + 1) 0 = q := by
        rw [aug_getD_mid positions D iq hiq, List.getD_eq_getElem?_getD,
          List.getElem?_eq_getElem hiq]
        simpa using hq
      have hpw : (0 :: positions ++ [D]).Pairwise (· < ·) := aug_pairwise positions D R h hD
      have hlen : (0 :: positions ++ [D]).length = positions.length + 2 := aug_length positions D
      have hcj : c < iq + 1 := by
        by_contra hle
        push_neg at hle
        have hwc : (0 :: positions ++ [D]).getD (iq + 1) 0 ≤
            (0 :: positions ++ [D]).getD c 0 := by
          rcases Nat.lt_or_ge (iq + 1) c with hlt | hge
          · have := (List.pairwise_iff_getElem.mp hpw) (iq + 1) c (by omega) (by omega) hlt
            rw [List.getD_eq_getElem?_getD, List.getD_eq_getElem?_getD,
              List.getElem?_eq_getElem (by omega : iq + 1 < (0 :: positions ++ [D]).length),
              List.getElem?_eq_getElem (by omega : c < (0 :: positions ++ [D]).length)]
            exact le_of_lt this
          · have : c = iq + 1 := by omega
            rw [this]
        have hq' := hgt q (List.mem_cons_self q rest)
        rw [hqd] at hwc
        exact absurd hq' (not_lt.mpr hwc)
      have hchain2 : List.Chain' (fun a b => b - a ≤ R)
          ((0 :: positions ++ [D]).getD c 0 :: q :: (rest ++ [D])) := hchain
      have hhop : q - (0 :: positions ++ [D]).getD c 0 ≤ R :=
        (List.chain'_cons.mp hchain2).1
      have hstep := ReachN.step hreach hcj
        (show iq + 1 < (0 :: positions ++ [D]).length by omega)
        (by rw [hqd]; exact hhop)
      have hcost : stepCost (positions.length + 1) (iq + 1) = 1 := by
        unfold stepCost
        rw [if_neg (by omega)]
      rw [hcost] at hstep
      have hpwplan : (q :: rest).Pairwise (· < ·) := by
        refine List.Pairwise.sublist hsub ?_
        exact List.chain'_iff_pairwise.mp h.2.2.1
      have hrest := ih (iq + 1) (k + 1) (by omega) hstep
        (List.sublist_of_cons_sublist hsub)
        (fun q' hq' => by
          rw [hqd]
          exact (List.pairwise_cons.mp hpwplan).1 q' hq')
        (by
          rw [hqd]
          exact (List.chain'_cons.mp hchain2).2)
      have harith : k + 1 + rest.length = k + (q :: rest).length := by
        simp
        omega
      rw [harith] at hrest
      exact hrest

/-- A feasible stop plan reaches the destination waypoint with
`plan.length` stops. -/
theorem plan_to_reach (positions : List ℚ) (D R : ℚ)
    (h : ValidGeometry positions D R) (hD : 0 < D) (plan : List ℚ)
    (hplan : IsStopPlan positions D R plan) :
    ReachN (0 :: positions ++ [D]) R (positions.length + 1)
      (positions.length + 1) plan.length := by
  obtain ⟨hsub, hchain⟩ := hplan
  have := plan_walk positions D R h hD plan 0 0 (by omega) ReachN.zero hsub
    (fun q hq => by
      rw [aug_getD_zero]
      exact (h.2.2.2 q (hsub.subset hq)).1)
    (by
      rw [aug_getD_zero]
      exact hchain)
  simpa using this

theorem getD_default_irrel (l : List ℕ) (i : ℕ) (h : i < l.length) (d d' : ℕ) :
    l.getD i d = l.getD i d' := by
  rw [List.getD_eq_getElem?_getD, List.getD_eq_getElem?_getD,
    List.getElem?_eq_getElem h]
  rfl

theorem min_stops_dp_unfold (positions : List ℚ) (D R : ℚ)
    (hok : _validate_inputs positions D R = .ok ()) (hD : ¬ D = 0) :
    min_stops_dp positions D R =
      if (0 :: positions ++ [D]).length + 1 ≤
          (dpS (0 :: positions ++ [D]) R).getD ((0 :: positions ++ [D]).length - 1)
            ((0 :: positions ++ [D]).length + 1) then
        .error "infeasible"
      else
        .ok ((dpS (0 :: positions ++ [D]) R).getD ((0 :: positions ++ [D]).length - 1) 0,
          (backtrack (0 :: positions ++ [D]) (dpP (0 :: positions ++ [D]) R)
            ((0 :: positions ++ [D]).length - 1) (0 :: positions ++ [D]).length
            ((0 :: positions ++ [D]).length - 1) []).reverse) := by
  unfold min_stops_dp
  rw [hok]
  rw [if_neg hD]
  rfl

/-- The plan reconstructed from the DP tables is a valid stop plan of the
destination's length. -/
theorem dp_witness_plan (positions : List ℚ) (D R : ℚ)
    (h : ValidGeometry positions D R) (hD : 0 < D)
    (hreach : (dpS (0 :: positions ++ [D]) R).getD
      ((0 :: positions ++ [D]).length - 1) ((0 :: positions ++ [D]).length + 1) <
      (0 :: positions ++ [D]).length + 1) :
    IsStopPlan positions D R
      ((backtrack (0 :: positions ++ [D]) (dpP (0 :: positions ++ [D]) R)
        ((0 :: positions ++ [D]).length - 1) (0 :: positions ++ [D]).length
        ((0 :: positions ++ [D]).length - 1) []).reverse) ∧
    ((backtrack (0 :: positions ++ [D]) (dpP (0 :: positions ++ [D]) R)
      ((0 :: positions ++ [D]).length - 1) (0 :: positions ++ [D]).length
      ((0 :: positions ++ [D]).length - 1) []).reverse).length =
      (dpS (0 :: positions ++ [D]) R).getD
        ((0 :: positions ++ [D]).length - 1) ((0 :: positions ++ [D]).length + 1) := by
  have hlen : (0 :: positions ++ [D]).length = positions.length + 2 :=
    aug_length positions D
  obtain ⟨idxs, hpw, hbounds, heq, hilen, hchain⟩ :=
    backtrack_dest (0 :: positions ++ [D]) R (by omega)
      (aug_getD_zero positions D) hreach
  rw [heq]
  have hplanmap : idxs.map (fun i => (0 :: positions ++ [D]).getD i 0) =
      (idxs.map (· - 1)).map (fun i => positions.getD i 0) := by
    rw [List.map_map]
    apply List.map_congr_left
    intro i hi
    obtain ⟨h1, h2⟩ := hbounds i hi
    obtain ⟨i', rfl⟩ : ∃ i', i = i' + 1 := ⟨i - 1, by omega⟩
    have : i' < positions.length := by omega
    rw [aug_getD_mid positions D i' this]
    simp [Function.comp]
  constructor
  constructor
  · rw [hplanmap]
    apply sublist_of_map_getD
    · rw [List.pairwise_map]
      refine hpw.imp_of_mem ?_
      intro a b ha hb hab
      have := (hbounds a ha).1
      omega
    · intro x hx
      rw [List.mem_map] at hx
      obtain ⟨y, hy, he⟩ := hx
      have := hbounds y hy
      omega
  · have hD' : (0 :: positions ++ [D]).getD (positions.length + 1) 0 = D :=
      aug_getD_last positions D
    have hshape := hchain
    rw [show (0 :: positions ++ [D]).length - 1 = positions.length + 1 by omega,
      hD'] at hshape
    exact hshape
  · rw [List.length_map]
    exact hilen

/-- Master correctness result for the DP oracle on valid geometries:
either it returns a minimal valid plan together with its length, or it
fails with the infeasibility error and no plan exists at all. -/
theorem min_stops_dp_main (positions : List ℚ) (D R : ℚ)
    (h : ValidGeometry positions D R) :
    (∃ k stops, min_stops_dp positions D R = .ok (k, stops) ∧
      stops.length = k ∧ IsStopPlan positions D R stops ∧
      ∀ plan, IsStopPlan positions D R plan → k ≤ plan.length) ∨
    (min_stops_dp positions D R = .error "infeasible" ∧
      ¬ ∃ plan, IsStopPlan positions D R plan) := by
  have hok : _validate_inputs positions D R = .ok () :=
    (validate_ok_iff positions D R).mpr h
  by_cases hD : D = 0
  · left
    refine ⟨0, [], ?_, rfl, ?_, fun plan _ => Nat.zero_le _⟩
    · unfold min_stops_dp
      rw [hok, if_pos hD]
    · subst hD
      refine ⟨List.nil_sublist positions, ?_⟩
      show List.Chain' (fun a b => b - a ≤ R) [0, (0 : ℚ)]
      rw [List.chain'_cons]
      refine ⟨by simpa using le_of_lt h.1, by simp⟩
  · have hD' : 0 < D := lt_of_le_of_ne h.2.1 (Ne.symm hD)
    have hlen : (0 :: positions ++ [D]).length = positions.length + 2 :=
      aug_length positions D
    rw [min_stops_dp_unfold positions D R hok hD]
    by_cases hfail : (0 :: positions ++ [D]).length + 1 ≤
        (dpS (0 :: positions ++ [D]) R).getD ((0 :: positions ++ [D]).length - 1)
          ((0 :: positions ++ [D]).length + 1)
    · right
      rw [if_pos hfail]
      refine ⟨rfl, ?_⟩
      rintro ⟨plan, hplan⟩
      have hreach := plan_to_reach positions D R h hD' plan hplan
      have hopt := dp_opt (0 :: positions ++ [D]) R (by omega)
        (positions.length + 1) plan.length
        (by rw [show (0 :: positions ++ [D]).length - 1 = positions.length + 1
          by omega]; exact hreach) (by omega)
      have hplanlen : plan.length ≤ positions.length :=
        hplan.1.length_le
      rw [show (0 :: positions ++ [D]).length - 1 = positions.length + 1
        by omega] at hfail
      omega
    · left
      rw [if_neg hfail]
      push_neg at hfail
      obtain ⟨hplanvalid, hplanlen⟩ := dp_witness_plan positions D R h hD' hfail
      refine ⟨_, _, rfl, ?_, hplanvalid, ?_⟩
      · rw [hplanlen]
        apply getD_default_irrel
        rw [dpS_length]
        omega
      · intro plan hplan
        have hreach := plan_to_reach positions D R h hD' plan hplan
        have hopt := dp_opt (0 :: positions ++ [D]) R (by omega)
          (positions.length + 1) plan.length
          (by rw [show (0 :: positions ++ [D]).length - 1 = positions.length + 1
            by omega]; exact hreach) (by omega)
        have hirrel : (dpS (0 :: positions ++ [D]) R).getD
            ((0 :: positions ++ [D]).length - 1) 0 =
            (dpS (0 :: positions ++ [D]) R).getD
              ((0 :: positions ++ [D]).length - 1)
              ((0 :: positions ++ [D]).length + 1) := by
          apply getD_default_irrel
          rw [dpS_length]
          omega
        rw [hirrel]
        rw [show (0 :: positions ++ [D]).length - 1 = positions.length + 1
          by omega]
        exact hopt

/-- C2: on every valid trip geometry on which `min_stops_dp` returns
normally, it returns `(count, stops)` where `stops` is a valid stop plan
of length `count` and `count` is the minimum possible number of charging
stops. -/
theorem C2_min_stops_dp_correct (positions : List ℚ) (D R : ℚ)
    (h : ValidGeometry positions D R) (k : ℕ) (stops : List ℚ)
    (hok : min_stops_dp positions D R = .ok (k, stops)) :
    stops.length = k ∧ IsStopPlan positions D R stops ∧
      ∀ plan, IsStopPlan positions D R plan → k ≤ plan.length := by
  rcases min_stops_dp_main positions D R h with
    ⟨k', stops', heq, hlen, hplan, hmin⟩ | ⟨herr, -⟩
  · rw [hok] at heq
    simp only [Except.ok.injEq, Prod.mk.injEq] at heq
    obtain ⟨h1, h2⟩ := heq
    subst h1
    subst h2
    exact ⟨hlen, hplan, hmin⟩
  · rw [hok] at herr
    cases herr

theorem C2_min_stops_dp_correct_witness :
    ValidGeometry [(20 : ℚ), 35, 50, 70, 90] 100 40 ∧
    min_stops_dp [(20 : ℚ), 35, 50, 70, 90] 100 40 = .ok (2, [35, 70]) ∧
    (([(35 : ℚ), 70] : List ℚ).length = 2 ∧
      IsStopPlan [(20 : ℚ), 35, 50, 70, 90] 100 40 [35, 70] ∧
      ∀ plan, IsStopPlan [(20 : ℚ), 35, 50, 70, 90] 100 40 plan →
        2 ≤ plan.length) :=
  ⟨by decide, by with_unfolding_all rfl,
    C2_min_stops_dp_correct [(20 : ℚ), 35, 50, 70, 90] 100 40 (by decide)
      2 [35, 70] (by with_unfolding_all rfl)⟩

/-- C5: on every valid trip geometry, `min_stops_dp` raises the
infeasibility error if and only if no feasible stop sequence exists; on
every feasible geometry it returns normally. -/
theorem C5_infeasible_iff (positions : List ℚ) (D R : ℚ)
    (h : ValidGeometry positions D R) :
    min_stops_dp positions D R = .error "infeasible" ↔
      ¬ ∃ plan, IsStopPlan positions D R plan := by
  rcases min_stops_dp_main positions D R h with
    ⟨k, stops, heq, -, hplan, -⟩ | ⟨herr, hno⟩
  · constructor
    · intro he
      rw [heq] at he
      cases he
    · intro hno
      exact absurd ⟨stops, hplan⟩ hno
  · exact ⟨fun _ => hno, fun _ => herr⟩

theorem C5_infeasible_iff_witness :
    ValidGeometry [(30 : ℚ), 70, 120] 150 40 ∧
    (min_stops_dp [(30 : ℚ), 70, 120] 150 40 = .error "infeasible" ↔
      ¬ ∃ plan, IsStopPlan [(30 : ℚ), 70, 120] 150 40 plan) :=
  ⟨by decide, C5_infeasible_iff [(30 : ℚ), 70, 120] 150 40 (by decide)⟩

/-- C9: whenever `min_stops_dp` returns normally on a valid trip geometry,
the returned count equals the length of the returned stop list and is at
most the number of input stations; the internal unreachable sentinel never
leaks into a successful result. -/
theorem C9_count_invariant (positions : List ℚ) (D R : ℚ)
    (h : ValidGeometry positions D R) (k : ℕ) (stops : List ℚ)
    (hok : min_stops_dp positions D R = .ok (k, stops)) :
    k = stops.length ∧ k ≤ positions.length := by
  rcases min_stops_dp_main positions D R h with
    ⟨k', stops', heq, hlen, hplan, hmin⟩ | ⟨herr, -⟩
  · rw [hok] at heq
    simp only [Except.ok.injEq, Prod.mk.injEq] at heq
    obtain ⟨h1, h2⟩ := heq
    subst h1
    subst h2
    exact ⟨hlen.symm, hlen ▸ hplan.1.length_le⟩
  · rw [hok] at herr
    cases herr

theorem C9_count_invariant_witness :
    ValidGeometry [(20 : ℚ), 35, 50, 70, 90] 100 40 ∧
    min_stops_dp [(20 : ℚ), 35, 50, 70, 90] 100 40 = .ok (2, [35, 70]) ∧
    ((2 : ℕ) = ([(35 : ℚ), 70] : List ℚ).length ∧
      (2 : ℕ) ≤ ([(20 : ℚ), 35, 50, 70, 90] : List ℚ).length) :=
  ⟨by decide, by with_unfolding_all rfl,
    C9_count_invariant [(20 : ℚ), 35, 50, 70, 90] 100 40 (by decide)
      2 [35, 70] (by with_unfolding_all rfl)⟩

/-! ## Greedy planner analysis -/

theorem greedyGo_succ (D R : ℚ) (fuel : ℕ) (current : ℚ) (stations : List ℚ) :
    greedyGo D R (fuel + 1) current stations =
      if D - current ≤ R then .ok []
      else
        match (stations.takeWhile fun p => decide (p - current ≤ R)).getLast? with
        | none => .error "infeasible"
        | some far =>
            match greedyGo D R fuel far
                (stations.dropWhile fun p => decide (p - current ≤ R)) with
            | .error e => .error e
            | .ok tail => .ok (far :: tail) := rfl

/-- Every station past the reachable front segment is strictly out of
range. -/
theorem dropWhile_all_far (R current : ℚ) (stations : List ℚ)
    (hpw : stations.Pairwise (· < ·)) :
    ∀ q ∈ stations.dropWhile fun p => decide (p - current ≤ R),
      R < q - current := by
  intro q hq
  rcases hdw : stations.dropWhile (fun p => decide (p - current ≤ R)) with _ | ⟨q0, rest⟩
  · rw [hdw] at hq
    cases hq
  · have hhead := List.head?_dropWhile_not (fun p => decide (p - current ≤ R)) stations
    rw [hdw] at hhead
    simp only [List.head?_cons] at hhead
    have hq0far : R < q0 - current := by
      simp only [decide_eq_false_iff_not, not_le] at hhead
      exact hhead
    rw [hdw] at hq
    rcases List.mem_cons.mp hq with he | hm
    · rw [he]
      exact hq0far
    · have hsub := List.dropWhile_sublist (l := stations)
        (p := fun p => decide (p - current ≤ R))
      rw [hdw] at hsub
      have hpw' := List.Pairwise.sublist hsub hpw
      have hlt := (List.pairwise_cons.mp hpw').1 q hm
      linarith

/-- Replacing the start of a feasible hop chain by a farther start and
discarding the plan entries it has passed keeps the chain feasible. -/
theorem chain_filter (D R : ℚ) :
    ∀ (l : List ℚ) (c c' : ℚ), c ≤ c' → l.Pairwise (· < ·) →
      (c :: l ++ [D]).Chain' (fun a b => b - a ≤ R) →
      (c' :: (l.filter fun q => decide (c' < q)) ++ [D]).Chain'
        (fun a b => b - a ≤ R) := by
  intro l
  induction l with
  | nil =>
      intro c c' hcc _ hchain
      have h2 : List.Chain' (fun a b => b - a ≤ R) [c, D] := hchain
      show List.Chain' (fun a b => b - a ≤ R) [c', D]
      rw [List.chain'_cons] at h2 ⊢
      exact ⟨by linarith [h2.1], by simp⟩
  | cons x xs ih =>
      intro c c' hcc hpw hchain
      have hchain2 : List.Chain' (fun a b => b - a ≤ R) (c :: x :: (xs ++ [D])) := hchain
      have hcx : x - c ≤ R := (List.chain'_cons.mp hchain2).1
      have htail : List.Chain' (fun a b => b - a ≤ R) (x :: (xs ++ [D])) :=
        (List.chain'_cons.mp hchain2).2
      have hxall : ∀ y ∈ xs, x < y := (List.pairwise_cons.mp hpw).1
      by_cases hc'x : c' < x
      · have hfcons : (x :: xs).filter (fun q => decide (c' < q)) = x :: xs := by
          rw [List.filter_eq_self]
          intro a ha
          rcases List.mem_cons.mp ha with he | hm
          · subst he
            simpa using hc'x
          · simpa using lt_trans hc'x (hxall a hm)
        rw [hfcons]
        show List.Chain' (fun a b => b - a ≤ R) (c' :: x :: (xs ++ [D]))
        rw [List.chain'_cons]
        exact ⟨by linarith, htail⟩
      · have hfcons : (x :: xs).filter (fun q => decide (c' < q)) =
            xs.filter fun q => decide (c' < q) := by
          rw [List.filter_cons]
          simp [hc'x]
        rw [hfcons]
        exact ih x c' (not_lt.mp hc'x) (List.pairwise_cons.mp hpw).2 htail

/-- A sublist of `P ++ Sf` all of whose elements dominate every element of
`P` is a sublist of `Sf`. -/
theorem sublist_right_of_gt :
    ∀ (P Sf l : List ℚ), l.Sublist (P ++ Sf) →
      (∀ x ∈ l, ∀ y ∈ P, y < x) → l.Sublist Sf := by
  intro P
  induction P with
  | nil =>
      intro Sf l h _
      simpa using h
  | cons y P ih =>
      intro Sf l h hgt
      rw [List.cons_append] at h
      cases h with
      | cons _ h' =>
          exact ih Sf l h' fun x hx y' hy' => hgt x hx y' (List.mem_cons_of_mem _ hy')
      | cons₂ _ h'' =>
          have := hgt y (List.mem_cons_self _ _) y (List.mem_cons_self _ _)
          exact absurd this (lt_irrefl y)

/-- Soundness of the greedy sweep: a successful run yields a subsequence
of the stations forming a feasible hop chain from the current position to
the destination. -/
theorem greedyGo_sound (D R : ℚ) :
    ∀ (fuel : ℕ) (stations : List ℚ) (current : ℚ) (l : List ℚ),
      greedyGo D R fuel current stations = .ok l →
      l.Sublist stations ∧
        (current :: l ++ [D]).Chain' (fun a b => b - a ≤ R) := by
  intro fuel
  induction fuel with
  | zero =>
      intro stations current l h
      cases h
  | succ fuel ih =>
      intro stations current l h
      rw [greedyGo_succ] at h
      by_cases hD : D - current ≤ R
      · rw [if_pos hD] at h
        simp only [Except.ok.injEq] at h
        subst h
        refine ⟨List.nil_sublist stations, ?_⟩
        show List.Chain' (fun a b => b - a ≤ R) [current, D]
        rw [List.chain'_cons]
        exact ⟨hD, by simp⟩
      · rw [if_neg hD] at h
        rcases hlast : (stations.takeWhile fun p => decide (p - current ≤ R)).getLast? with
          _ | far
        · simp only [hlast] at h
          cases h
        · simp only [hlast] at h
          rcases hrec : greedyGo D R fuel far
              (stations.dropWhile fun p => decide (p - current ≤ R)) with e | tail
          · simp only [hrec] at h
            cases h
          · simp only [hrec, Except.ok.injEq] at h
            subst h
            obtain ⟨hsub, hchain⟩ := ih _ far tail hrec
            obtain ⟨front, hfront⟩ := List.getLast?_eq_some_iff.mp hlast
            have hfarmem : far ∈ stations.takeWhile fun p => decide (p - current ≤ R) := by
              rw [hfront]
              exact List.mem_append_right front (List.mem_cons_self far [])
            have hfarhop : far - current ≤ R := by
              have := List.mem_takeWhile_imp hfarmem
              simpa using this
            constructor
            · have h1 : far :: tail = [far] ++ tail := rfl
              rw [h1]
              have h2 : List.Sublist ([far] ++ tail)
                  ((front ++ [far]) ++
                    (stations.dropWhile fun p => decide (p - current ≤ R))) := by
                apply List.Sublist.append _ hsub
                exact List.sublist_append_right front [far]
              rw [List.append_assoc] at h2
              have h3 : front ++ ([far] ++
                  (stations.dropWhile fun p => decide (p - current ≤ R))) =
                  (front ++ [far]) ++
                    (stations.dropWhile fun p => decide (p - current ≤ R)) := by
                rw [List.append_assoc]
              rw [h3, ← hfront, List.takeWhile_append_dropWhile] at h2
              exact h2
            · show List.Chain' (fun a b => b - a ≤ R) (current :: far :: (tail ++ [D]))
              rw [List.chain'_cons]
              exact ⟨hfarhop, hchain⟩

/-- With fuel exceeding the station count, the greedy sweep never
exhausts its fuel. -/
theorem greedyGo_no_fuel_error (D R : ℚ) :
    ∀ (fuel : ℕ) (stations : List ℚ) (current : ℚ),
      stations.length < fuel →
      greedyGo D R fuel current stations ≠ .error "fuel exhausted" := by
  intro fuel
  induction fuel with
  | zero =>
      intro stations current hlen
      omega
  | succ fuel ih =>
      intro stations current hlen
      rw [greedyGo_succ]
      by_cases hD : D - current ≤ R
      · rw [if_pos hD]
        intro h
        cases h
      · rw [if_neg hD]
        rcases hlast : (stations.takeWhile fun p => decide (p - current ≤ R)).getLast? with
          _ | far
        · simp only [hlast]
          intro h
          simp at h
        · have hlen2 : (stations.dropWhile fun p => decide (p - current ≤ R)).length < fuel := by
            have htw : (stations.takeWhile fun p => decide (p - current ≤ R)) ≠ [] := by
              intro hnil
              rw [hnil] at hlast
              cases hlast
            have hsplit := List.takeWhile_append_dropWhile
              (p := fun p => decide (p - current ≤ R)) (l := stations)
            have hlens := congrArg List.length hsplit
            rw [List.length_append] at hlens
            have htwpos : 0 < (stations.takeWhile fun p => decide (p - current ≤ R)).length :=
              List.length_pos.mpr htw
            omega
          simp only [hlast]
          rcases hrec : greedyGo D R fuel far
              (stations.dropWhile fun p => decide (p - current ≤ R)) with e | tail
          · simp only [hrec]
            intro h
            simp only [Except.error.injEq] at h
            exact ih _ far hlen2 (by rw [hrec, h])
          · simp only [hrec]
            intro h
            cases h

/-- Exchange argument: whenever some feasible plan over the remaining
stations exists, the greedy sweep succeeds and its plan is no longer. -/
theorem greedyGo_dominates (D R : ℚ) :
    ∀ (N : ℕ) (plan stations : List ℚ) (current : ℚ) (fuel : ℕ),
      plan.length ≤ N →
      stations.length < fuel →
      stations.Pairwise (· < ·) →
      (∀ p ∈ stations, current < p) →
      plan.Sublist stations →
      (current :: plan ++ [D]).Chain' (fun a b => b - a ≤ R) →
      ∃ l, greedyGo D R fuel current stations = .ok l ∧
        l.length ≤ plan.length := by
  intro N
  induction N with
  | zero =>
      intro plan stations current fuel hN hfuel _ _ _ hchain
      have hplan : plan = [] := List.length_eq_zero.mp (Nat.le_zero.mp hN)
      subst hplan
      have hD : D - current ≤ R := by
        have h2 : List.Chain' (fun a b => b - a ≤ R) [current, D] := hchain
        exact (List.chain'_cons.mp h2).1
      obtain ⟨f, rfl⟩ : ∃ f, fuel = f + 1 := ⟨fuel - 1, by omega⟩
      refine ⟨[], ?_, le_refl _⟩
      rw [greedyGo_succ, if_pos hD]
  | succ N ih =>
      intro plan stations current fuel hN hfuel hpw hgt hsub hchain
      obtain ⟨f, rfl⟩ : ∃ f, fuel = f + 1 := ⟨fuel - 1, by omega⟩
      by_cases hD : D - current ≤ R
      · exact ⟨[], by rw [greedyGo_succ, if_pos hD], Nat.zero_le _⟩
      rcases plan with _ | ⟨p, rest⟩
      · have h2 : List.Chain' (fun a b => b - a ≤ R) [current, D] := hchain
        exact absurd (List.chain'_cons.mp h2).1 hD
      have hpmem : p ∈ stations := hsub.subset (List.mem_cons_self _ _)
      have hphop : p - current ≤ R := by
        have h2 : List.Chain' (fun a b => b - a ≤ R)
          (current :: p :: (rest ++ [D])) := hchain
        exact (List.chain'_cons.mp h2).1
      have hptw : p ∈ stations.takeWhile fun q => decide (q - current ≤ R) := by
        have hpm2 : p ∈ (stations.takeWhile fun q => decide (q - current ≤ R)) ++
            (stations.dropWhile fun q => decide (q - current ≤ R)) := by
          rw [List.takeWhile_append_dropWhile]
          exact hpmem
        rcases List.mem_append.mp hpm2 with hcase | hcase
        · exact hcase
        · exact absurd hphop
            (not_le.mpr (dropWhile_all_far R current stations hpw p hcase))
      have htwne : (stations.takeWhile fun q => decide (q - current ≤ R)) ≠ [] :=
        List.ne_nil_of_mem hptw
      rcases hlast : (stations.takeWhile fun q => decide (q - current ≤ R)).getLast? with
        _ | far
      · exact absurd (List.getLast?_eq_none_iff.mp hlast) htwne
      obtain ⟨front, hfront⟩ := List.getLast?_eq_some_iff.mp hlast
      have htwsub : List.Sublist
          (stations.takeWhile fun q => decide (q - current ≤ R)) stations :=
        List.takeWhile_sublist _
      have htwpw := List.Pairwise.sublist htwsub hpw
      have hfarmax : ∀ x ∈ stations.takeWhile fun q => decide (q - current ≤ R),
          x ≤ far := by
        intro x hx
        rw [hfront] at hx htwpw
        rcases List.mem_append.mp hx with hxf | hxe
        · exact le_of_lt
            ((List.pairwise_append.mp htwpw).2.2 x hxf far (List.mem_cons_self _ _))
        · exact le_of_eq (List.mem_singleton.mp hxe)
      have hfartw : far ∈ stations.takeWhile fun q => decide (q - current ≤ R) := by
        rw [hfront]
        exact List.mem_append_right _ (List.mem_cons_self _ _)
      have hfarmem : far ∈ stations := htwsub.subset hfartw
      have hfarhop : far - current ≤ R := by
        have := List.mem_takeWhile_imp hfartw
        simpa using this
      have hcurfar : current < far := hgt far hfarmem
      have hpfar : p ≤ far := hfarmax p hptw
      set dw := stations.dropWhile fun q => decide (q - current ≤ R) with hdwdef
      have hdwfar : ∀ q ∈ dw, far < q := by
        intro q hq
        have h1 := dropWhile_all_far R current stations hpw q hq
        linarith
      have hplanpw : List.Pairwise (· < ·) (p :: rest) := List.Pairwise.sublist hsub hpw
      have hfilterp : ((p :: rest).filter fun q => decide (far < q)) =
          rest.filter fun q => decide (far < q) := by
        rw [List.filter_cons]
        have hnp : ¬ far < p := not_lt.mpr hpfar
        simp [hnp]
      have hchainF : (far :: (rest.filter fun q => decide (far < q)) ++ [D]).Chain'
          (fun a b => b - a ≤ R) := by
        have h1 := chain_filter D R (p :: rest) current far (le_of_lt hcurfar)
          hplanpw hchain
        rw [hfilterp] at h1
        exact h1
      have hsubF : (rest.filter fun q => decide (far < q)).Sublist dw := by
        have h1 : (rest.filter fun q => decide (far < q)).Sublist (p :: rest) :=
          (List.filter_sublist rest).trans (List.sublist_cons_self p rest)
        have h2 : (rest.filter fun q => decide (far < q)).Sublist stations :=
          h1.trans hsub
        have h3 : (rest.filter fun q => decide (far < q)).Sublist
            ((stations.takeWhile fun q => decide (q - current ≤ R)) ++ dw) := by
          rw [hdwdef, List.takeWhile_append_dropWhile]
          exact h2
        refine sublist_right_of_gt _ _ _ h3 ?_
        intro x hx y hy
        have hxfar : far < x := by
          have := (List.mem_filter.mp hx).2
          simpa using this
        have hyfar : y ≤ far := hfarmax y hy
        linarith
      have hdwpw : List.Pairwise (· < ·) dw :=
        List.Pairwise.sublist (List.dropWhile_sublist _) hpw
      have hdwlen : dw.length < f := by
        have hsplit := List.takeWhile_append_dropWhile
          (p := fun q => decide (q - current ≤ R)) (l := stations)
        have hlens := congrArg List.length hsplit
        rw [List.length_append] at hlens
        rw [← hdwdef] at hlens
        have htwpos : 0 < (stations.takeWhile fun q => decide (q - current ≤ R)).length :=
          List.length_pos.mpr htwne
        omega
      have hlenN : (rest.filter fun q => decide (far < q)).length ≤ N := by
        have h1 : (rest.filter fun q => decide (far < q)).length ≤ rest.length :=
          List.length_filter_le _ _
        simp only [List.length_cons] at hN
        omega
      obtain ⟨tail, htok, htlen⟩ := ih (rest.filter fun q => decide (far < q)) dw far f
        hlenN hdwlen hdwpw hdwfar hsubF hchainF
      refine ⟨far :: tail, ?_, ?_⟩
      · rw [greedyGo_succ, if_neg hD]
        simp only [hlast]
        rw [← hdwdef]
        simp only [htok]
      · have h1 : (rest.filter fun q => decide (far < q)).length ≤ rest.length :=
          List.length_filter_le _ _
        simp only [List.length_cons]
        omega

/-- C1: on every valid trip geometry (positive range, non-negative
destination, strictly increasing stations strictly inside the trip) the
greedy planner `plan_stops_sorted` and the DP oracle `min_stops_dp`
agree: one reports the infeasibility error exactly when the other does,
and on success the two plans have the same length. -/
theorem C1_greedy_matches_dp (positions : List ℚ) (D R : ℚ)
    (h : ValidGeometry positions D R) :
    (plan_stops_sorted positions D R = .error "infeasible" ↔
      min_stops_dp positions D R = .error "infeasible") ∧
    ∀ g k s, plan_stops_sorted positions D R = .ok g →
      min_stops_dp positions D R = .ok (k, s) → g.length = s.length := by
  have hok : _validate_inputs positions D R = .ok () :=
    (validate_ok_iff positions D R).mpr h
  by_cases hD0 : D = 0
  · have hps : plan_stops_sorted positions D R = .ok [] := by
      unfold plan_stops_sorted
      rw [hok, if_pos hD0]
    have hdp : min_stops_dp positions D R = .ok (0, []) := by
      unfold min_stops_dp
      rw [hok, if_pos hD0]
    refine ⟨⟨?_, ?_⟩, ?_⟩
    · intro habs
      rw [hps] at habs
      cases habs
    · intro habs
      rw [hdp] at habs
      cases habs
    · intro g k s hg hm
      rw [hps] at hg
      rw [hdp] at hm
      simp only [Except.ok.injEq, Prod.mk.injEq] at hg hm
      rw [← hg, ← hm.2]
  · have hpwlt : positions.Pairwise (· < ·) := List.chain'_iff_pairwise.mp h.2.2.1
    have hstart : ∀ p ∈ positions, (0 : ℚ) < p := fun p hp => (h.2.2.2 p hp).1
    have hps_unfold : plan_stops_sorted positions D R =
        greedyGo D R (positions.length + 1) 0 positions := by
      unfold plan_stops_sorted
      rw [hok, if_neg hD0]
    rcases min_stops_dp_main positions D R h with
      ⟨k, stops, hdp, hlen, hplan, hmin⟩ | ⟨hdp, hno⟩
    · obtain ⟨l, hgok, hllen⟩ := greedyGo_dominates D R stops.length stops positions 0
        (positions.length + 1) le_rfl (Nat.lt_succ_self _) hpwlt hstart
        hplan.1 hplan.2
      have hsound := greedyGo_sound D R (positions.length + 1) positions 0 l hgok
      have hkl : k ≤ l.length := hmin l ⟨hsound.1, hsound.2⟩
      have hleq : l.length = stops.length :=
        le_antisymm hllen (by rw [hlen]; exact hkl)
      have hps : plan_stops_sorted positions D R = .ok l := by
        rw [hps_unfold]
        exact hgok
      refine ⟨⟨?_, ?_⟩, ?_⟩
      · intro habs
        rw [hps] at habs
        cases habs
      · intro habs
        rw [hdp] at habs
        cases habs
      · intro g k' s hg hm
        rw [hps] at hg
        rw [hdp] at hm
        simp only [Except.ok.injEq, Prod.mk.injEq] at hg hm
        rw [← hg, ← hm.2]
        exact hleq
    · have hginf : greedyGo D R (positions.length + 1) 0 positions =
          .error "infeasible" := by
        rcases greedyGo_cases D R (positions.length + 1) 0 positions with
          ⟨l, hl⟩ | hinf | hfe
        · exfalso
          have hsound := greedyGo_sound D R (positions.length + 1) positions 0 l hl
          exact hno ⟨l, hsound.1, hsound.2⟩
        · exact hinf
        · exact absurd hfe
            (greedyGo_no_fuel_error D R (positions.length + 1) positions 0
              (Nat.lt_succ_self _))
      have hps : plan_stops_sorted positions D R = .error "infeasible" := by
        rw [hps_unfold]
        exact hginf
      refine ⟨⟨fun _ => hdp, fun _ => hps⟩, ?_⟩
      intro g k' s hg hm
      rw [hps] at hg
      cases hg

theorem C1_greedy_matches_dp_witness :
    ValidGeometry [(20 : ℚ), 35, 50, 70, 90] 100 40 ∧
    ((plan_stops_sorted [(20 : ℚ), 35, 50, 70, 90] 100 40 = .error "infeasible" ↔
        min_stops_dp [(20 : ℚ), 35, 50, 70, 90] 100 40 = .error "infeasible") ∧
      ∀ g k s, plan_stops_sorted [(20 : ℚ), 35, 50, 70, 90] 100 40 = .ok g →
        min_stops_dp [(20 : ℚ), 35, 50, 70, 90] 100 40 = .ok (k, s) →
        g.length = s.length) :=
  ⟨by decide, C1_greedy_matches_dp [(20 : ℚ), 35, 50, 70, 90] 100 40 (by decide)⟩

end AoA
